import Mathlib

set_option maxHeartbeats 1000000

namespace Cramberry

/-- Kind of an underlying I/O failure, reduced to what the claims distinguish.
Models the `std::io::ErrorKind` carried by `Error::Io` in `error.rs`. -/
inductive IoKind where
  | unexpectedEofKind
  | otherKind
  deriving DecidableEq

/-- Error type mirroring the `Error` enum of `error.rs`.  The `Custom` message
string is dropped (no claim inspects it) and a wrapped I/O error is reduced to
its kind. -/
inductive Error where
  | bufferOverflow (needed available : Nat)
  | bufferUnderflow (needed available : Nat)
  | varintOverflow
  | invalidWireType (b : Nat)
  | unknownTypeId (id : Nat)
  | typeNotRegistered (name : String)
  | invalidUtf8
  | unexpectedEof
  | ioFailure (k : IoKind)
  | custom
  deriving DecidableEq

/-- Wire types of `types.rs` (`WireType`), values 0-4. -/
inductive WireType where
  | varint
  | fixed64
  | bytes
  | fixed32
  | svarint
  deriving DecidableEq

/-- Numeric value of a wire type (the `#[repr(u8)]` discriminant). -/
def WireType.toNat : WireType → Nat
  | .varint => 0
  | .fixed64 => 1
  | .bytes => 2
  | .fixed32 => 3
  | .svarint => 4

/-- Mirrors `WireType::from_u8`. -/
def WireType.fromNat : Nat → Option WireType
  | 0 => some .varint
  | 1 => some .fixed64
  | 2 => some .bytes
  | 3 => some .fixed32
  | 4 => some .svarint
  | _ => none

/-- Constants of `types.rs`. -/
def END_MARKER : Nat := 0x00

def TAG_EXTENDED_BIT : Nat := 0x01

def TAG_WIRE_TYPE_MASK : Nat := 0x0e

def TAG_WIRE_TYPE_SHIFT : Nat := 1

def TAG_FIELD_NUM_SHIFT : Nat := 4

def MAX_COMPACT_FIELD_NUM : Nat := 15

/-- Field tag, `FieldTag` of `types.rs`: field number (u32) plus wire type. -/
structure FieldTag where
  field_number : Nat
  wire_type : WireType
  deriving DecidableEq

/-- Shared LEB128 emission loop: `while value > 0x7f { push(low7 | 0x80); value >>= 7 }
push(value)`.  The fuel argument bounds the number of continuation bytes emitted;
`write_varint` (u32 values) is run with fuel 5 and `write_varint64` (u64 values)
with fuel 10, which is more than any value of the corresponding width needs, so
the fuel-exhausted branch is unreachable there. -/
def writeVarintGo : Nat → Nat → List Nat
  | 0, v => [v]
  | fuel + 1, v =>
    if 0x7f < v then ((v &&& 0x7f) ||| 0x80) :: writeVarintGo fuel (v >>> 7)
    else [v]

/-- Mirrors `FieldTag::encode_compact` of `types.rs`.  The `% 256` operations model
the `as u8` casts of the source (no-ops on the reachable inputs).  The varint loop
for the extended form is the same loop as `Writer::write_varint`. -/
def FieldTag.encode_compact (t : FieldTag) : List Nat :=
  if t.field_number = 0 then []
  else if t.field_number ≤ MAX_COMPACT_FIELD_NUM then
    [(((t.field_number % 256) <<< TAG_FIELD_NUM_SHIFT) % 256) |||
      (t.wire_type.toNat <<< TAG_WIRE_TYPE_SHIFT)]
  else
    ((t.wire_type.toNat <<< TAG_WIRE_TYPE_SHIFT) ||| TAG_EXTENDED_BIT)
      :: writeVarintGo 5 t.field_number

/-- Result of decoding a compact tag, `CompactTagResult` of `types.rs`. -/
structure CompactTagResult where
  field_number : Nat
  wire_type : WireType
  bytes_read : Nat
  deriving DecidableEq

/-- Extended-tag varint loop of `decode_compact_tag` (`types.rs` lines 152-170).
Arguments: remaining bytes after position `i`, current index `i`, current shift,
accumulated field number.  Returns `(field_number, bytes_read)`; `none` models
both the buffer-underflow and the shift-overflow `return None` paths.  The
`% 2 ^ 32` models the u32 truncation of `((b & 0x7f) as u32) << shift`. -/
def decodeExtGo : List Nat → Nat → Nat → Nat → Option (Nat × Nat)
  | [], _, _, _ => none
  | b :: rest, i, shift, fn =>
    let fn' := fn ||| (((b &&& 0x7f) <<< shift) % 2 ^ 32)
    if b &&& 0x80 = 0 then some (fn', i + 1)
    else if 35 ≤ shift + 7 then none
    else decodeExtGo rest (i + 1) (shift + 7) fn'

/-- Mirrors `decode_compact_tag` of `types.rs`. -/
def decode_compact_tag (data : List Nat) : Option CompactTagResult :=
  match data with
  | [] => none
  | tag :: rest =>
    if tag = END_MARKER then
      some { field_number := 0, wire_type := .varint, bytes_read := 1 }
    else
      match WireType.fromNat ((tag &&& TAG_WIRE_TYPE_MASK) >>> TAG_WIRE_TYPE_SHIFT) with
      | none => none
      | some wire_type =>
        if tag &&& TAG_EXTENDED_BIT = 0 then
          some { field_number := tag >>> TAG_FIELD_NUM_SHIFT, wire_type, bytes_read := 1 }
        else
          match decodeExtGo rest 1 0 0 with
          | none => none
          | some (fn, i) => some { field_number := fn, wire_type, bytes_read := i }

/-- Two's-complement bit pattern (as a Nat) of an i32 value, modelling `as u32`. -/
def toU32 (n : Int) : Nat := (n % (2 ^ 32 : Int)).toNat

/-- Signed value of a u32 bit pattern, modelling `as i32`. -/
def fromU32 (p : Nat) : Int := if p < 2 ^ 31 then (p : Int) else (p : Int) - 2 ^ 32

/-- Two's-complement bit pattern (as a Nat) of an i64 value, modelling `as u64`. -/
def toU64 (n : Int) : Nat := (n % (2 ^ 64 : Int)).toNat

/-- Signed value of a u64 bit pattern, modelling `as i64`. -/
def fromU64 (p : Nat) : Int := if p < 2 ^ 63 then (p : Int) else (p : Int) - 2 ^ 64

/-- Mirrors `zigzag_encode_32`: `((n << 1) ^ (n >> 31)) as u32`.  The wrapping
left shift `n << 1` has bit pattern `toU32 (n * 2)`; `n >> 31` is the arithmetic
shift (`Int.shiftRight`); the i32 xor acts on the bit patterns. -/
def zigzag_encode_32 (n : Int) : Nat :=
  toU32 (n * 2) ^^^ toU32 (Int.shiftRight n 31)

/-- Mirrors `zigzag_encode_64`. -/
def zigzag_encode_64 (n : Int) : Nat :=
  toU64 (n * 2) ^^^ toU64 (Int.shiftRight n 63)

/-- Mirrors `zigzag_decode_32`: `((n >> 1) as i32) ^ (-((n & 1) as i32))`,
computed on bit patterns then read back as a signed value. -/
def zigzag_decode_32 (u : Nat) : Int :=
  fromU32 ((u >>> 1) ^^^ toU32 (-((u &&& 1 : Nat) : Int)))

/-- Mirrors `zigzag_decode_64`. -/
def zigzag_decode_64 (u : Nat) : Int :=
  fromU64 ((u >>> 1) ^^^ toU64 (-((u &&& 1 : Nat) : Int)))

/-! Writer (`writer.rs`).  A `Writer` owns a growable byte buffer; every
`write_*` method appends a byte sequence determined by its arguments alone.
Each function below is the byte sequence the corresponding method appends. -/

namespace Writer

/-- Mirrors `Writer::write_varint` (u32): the shared LEB128 loop, fuel 5. -/
def write_varint (v : Nat) : List Nat := writeVarintGo 5 v

/-- Mirrors `Writer::write_varint64` (u64): the shared LEB128 loop, fuel 10. -/
def write_varint64 (v : Nat) : List Nat := writeVarintGo 10 v

/-- Mirrors `Writer::write_svarint`. -/
def write_svarint (n : Int) : List Nat := write_varint (zigzag_encode_32 n)

/-- Mirrors `Writer::write_svarint64`. -/
def write_svarint64 (n : Int) : List Nat := write_varint64 (zigzag_encode_64 n)

/-- Mirrors `Writer::write_fixed32`: `to_le_bytes` of the u32 value. -/
def write_fixed32 (v : Nat) : List Nat :=
  [v &&& 0xff, (v >>> 8) &&& 0xff, (v >>> 16) &&& 0xff, (v >>> 24) &&& 0xff]

/-- Mirrors `Writer::write_fixed64`: `to_le_bytes` of the u64 value. -/
def write_fixed64 (v : Nat) : List Nat :=
  [v &&& 0xff, (v >>> 8) &&& 0xff, (v >>> 16) &&& 0xff, (v >>> 24) &&& 0xff,
   (v >>> 32) &&& 0xff, (v >>> 40) &&& 0xff, (v >>> 48) &&& 0xff, (v >>> 56) &&& 0xff]

/-- Mirrors `Writer::write_length_prefixed_bytes`: varint of `data.len() as u32`
then the raw bytes. -/
def write_length_prefixed_bytes (data : List Nat) : List Nat :=
  write_varint (data.length % 2 ^ 32) ++ data

/-- Mirrors `Writer::write_tag`. -/
def write_tag (field_number : Nat) (wire_type : WireType) : List Nat :=
  FieldTag.encode_compact ⟨field_number, wire_type⟩

/-- Mirrors `Writer::write_end_marker`. -/
def write_end_marker : List Nat := [END_MARKER]

end Writer

/-! Reader (`reader.rs`).  A `Reader` is a cursor (borrowed buffer plus
position).  Each operation returns its result together with the reader state
after the call, so that the position after a failure is also modelled (the Rust
methods mutate `self.pos` before returning `Err`). -/

/-- Reader state: immutable buffer and current position. -/
structure Reader where
  buffer : List Nat
  pos : Nat
  deriving DecidableEq

namespace Reader

/-- Mirrors `Reader::remaining`. -/
def remaining (r : Reader) : Nat := r.buffer.length - r.pos

/-- Mirrors `Reader::has_more`. -/
def has_more (r : Reader) : Bool := decide (r.pos < r.buffer.length)

/-- Mirrors `Reader::check_available`. -/
def check_available (r : Reader) (needed : Nat) : Except Error Unit :=
  if r.pos + needed > r.buffer.length then .error (.bufferUnderflow needed r.remaining)
  else .ok ()

/-- Mirrors `Reader::read_byte`. -/
def read_byte (r : Reader) : Except Error Nat × Reader :=
  match r.check_available 1 with
  | .error e => (.error e, r)
  | .ok _ => (.ok (r.buffer.getD r.pos 0), { r with pos := r.pos + 1 })

/-- Mirrors `Reader::read_bytes`. -/
def read_bytes (r : Reader) (length : Nat) : Except Error (List Nat) × Reader :=
  match r.check_available length with
  | .error e => (.error e, r)
  | .ok _ => (.ok ((r.buffer.drop r.pos).take length), { r with pos := r.pos + length })

/-- Loop of `Reader::read_varint` (`for i in 0..MAX_VARINT_BYTES`), with the
remaining iteration count as structural fuel; `read_varint` starts it with
fuel 10 and `i = 0`, so `fuel + i = 10` throughout.  The accumulator update
`result |= ((b & 0x7f) as u32) << shift` (with `shift = 7 * i`) truncates to
u32, modelled by `% 2 ^ 32`.  The fuel-exhausted case is the `for` loop falling
through to `Err(VarintOverflow)`. -/
def readVarint32Go : Nat → Nat → Nat → Reader → Except Error Nat × Reader
  | 0, _, _, r => (.error .varintOverflow, r)
  | fuel + 1, i, acc, r =>
    if r.pos + 1 > r.buffer.length then (.error (.bufferUnderflow 1 r.remaining), r)
    else
      let b := r.buffer.getD r.pos 0
      let r' : Reader := { r with pos := r.pos + 1 }
      if i = 4 ∧ b &&& 0xf0 ≠ 0 then (.error .varintOverflow, r')
      else
        let acc' := acc ||| (((b &&& 0x7f) <<< (7 * i)) % 2 ^ 32)
        if b &&& 0x80 = 0 then (.ok acc', r')
        else readVarint32Go fuel (i + 1) acc' r'

/-- Mirrors `Reader::read_varint` (32-bit). -/
def read_varint (r : Reader) : Except Error Nat × Reader := readVarint32Go 10 0 0 r

/-- Loop of `Reader::read_varint64`, same conventions as `readVarint32Go`; at
the 10th byte (`i = 9`) the continuation bit must be clear and the data must be
at most 1. -/
def readVarint64Go : Nat → Nat → Nat → Reader → Except Error Nat × Reader
  | 0, _, _, r => (.error .varintOverflow, r)
  | fuel + 1, i, acc, r =>
    if r.pos + 1 > r.buffer.length then (.error (.bufferUnderflow 1 r.remaining), r)
    else
      let b := r.buffer.getD r.pos 0
      let r' : Reader := { r with pos := r.pos + 1 }
      if i = 9 ∧ 0x80 ≤ b then (.error .varintOverflow, r')
      else if i = 9 ∧ 1 < b then (.error .varintOverflow, r')
      else
        let acc' := acc ||| (((b &&& 0x7f) <<< (7 * i)) % 2 ^ 64)
        if b &&& 0x80 = 0 then (.ok acc', r')
        else readVarint64Go fuel (i + 1) acc' r'

/-- Mirrors `Reader::read_varint64`. -/
def read_varint64 (r : Reader) : Except Error Nat × Reader := readVarint64Go 10 0 0 r

/-- Mirrors `Reader::read_svarint`. -/
def read_svarint (r : Reader) : Except Error Int × Reader :=
  match r.read_varint with
  | (.error e, r') => (.error e, r')
  | (.ok v, r') => (.ok (zigzag_decode_32 v), r')

/-- Mirrors `Reader::read_svarint64`. -/
def read_svarint64 (r : Reader) : Except Error Int × Reader :=
  match r.read_varint64 with
  | (.error e, r') => (.error e, r')
  | (.ok v, r') => (.ok (zigzag_decode_64 v), r')

/-- Mirrors `Reader::read_tag`: an empty remainder is a buffer underflow, any
`None` from `decode_compact_tag` becomes `InvalidWireType` carrying the first
remaining byte, and the position advances by `bytes_read` only on success. -/
def read_tag (r : Reader) : Except Error FieldTag × Reader :=
  match r.buffer.drop r.pos with
  | [] => (.error (.bufferUnderflow 1 0), r)
  | b :: rest =>
    match decode_compact_tag (b :: rest) with
    | none => (.error (.invalidWireType b), r)
    | some result =>
      (.ok ⟨result.field_number, result.wire_type⟩, { r with pos := r.pos + result.bytes_read })

/-- Mirrors `Reader::peek_end_marker`. -/
def peek_end_marker (r : Reader) : Bool :=
  decide (r.pos < r.buffer.length) && (r.buffer.getD r.pos 0 == END_MARKER)

/-- Mirrors `Reader::is_end_marker`. -/
def is_end_marker (tag : FieldTag) : Bool := tag.field_number == 0

/-- Mirrors `Reader::read_bool`. -/
def read_bool (r : Reader) : Except Error Bool × Reader :=
  match r.read_byte with
  | (.error e, r') => (.error e, r')
  | (.ok b, r') => (.ok (b != 0), r')

/-- Little-endian recomposition used by `from_le_bytes`. -/
def fromLeBytes (bs : List Nat) : Nat := bs.foldr (fun b acc => b + 256 * acc) 0

/-- Mirrors `Reader::read_fixed32`. -/
def read_fixed32 (r : Reader) : Except Error Nat × Reader :=
  match r.read_bytes 4 with
  | (.error e, r') => (.error e, r')
  | (.ok bs, r') => (.ok (fromLeBytes bs), r')

/-- Mirrors `Reader::read_fixed64`. -/
def read_fixed64 (r : Reader) : Except Error Nat × Reader :=
  match r.read_bytes 8 with
  | (.error e, r') => (.error e, r')
  | (.ok bs, r') => (.ok (fromLeBytes bs), r')

/-- Mirrors `Reader::read_float32`; the f32 value is represented by its
IEEE-754 bit pattern, which `f32::from_le_bytes` reads little-endian. -/
def read_float32 (r : Reader) : Except Error Nat × Reader :=
  match r.read_bytes 4 with
  | (.error e, r') => (.error e, r')
  | (.ok bs, r') => (.ok (fromLeBytes bs), r')

/-- Mirrors `Reader::read_float64`; f64 value as IEEE-754 bit pattern. -/
def read_float64 (r : Reader) : Except Error Nat × Reader :=
  match r.read_bytes 8 with
  | (.error e, r') => (.error e, r')
  | (.ok bs, r') => (.ok (fromLeBytes bs), r')

/-- Continuation byte test of UTF-8 validation. -/
def utf8Cont (b : Nat) : Bool := if 0x80 ≤ b ∧ b ≤ 0xbf then true else false

/-- Models the validation performed by `std::str::from_utf8` (the external
standard-library function `read_string` calls): the standard UTF-8 well-
formedness rules with the surrogate and overlong ranges excluded. -/
def utf8Valid : List Nat → Bool
  | [] => true
  | b :: rest =>
    if b ≤ 0x7f then utf8Valid rest
    else if 0xc2 ≤ b ∧ b ≤ 0xdf then
      match rest with
      | c1 :: rest2 => utf8Cont c1 && utf8Valid rest2
      | [] => false
    else if b = 0xe0 then
      match rest with
      | c1 :: c2 :: rest2 =>
        (if 0xa0 ≤ c1 ∧ c1 ≤ 0xbf then true else false) && utf8Cont c2 && utf8Valid rest2
      | _ => false
    else if (0xe1 ≤ b ∧ b ≤ 0xec) ∨ b = 0xee ∨ b = 0xef then
      match rest with
      | c1 :: c2 :: rest2 => utf8Cont c1 && utf8Cont c2 && utf8Valid rest2
      | _ => false
    else if b = 0xed then
      match rest with
      | c1 :: c2 :: rest2 =>
        (if 0x80 ≤ c1 ∧ c1 ≤ 0x9f then true else false) && utf8Cont c2 && utf8Valid rest2
      | _ => false
    else if b = 0xf0 then
      match rest with
      | c1 :: c2 :: c3 :: rest2 =>
        (if 0x90 ≤ c1 ∧ c1 ≤ 0xbf then true else false) && utf8Cont c2 && utf8Cont c3 &&
          utf8Valid rest2
      | _ => false
    else if 0xf1 ≤ b ∧ b ≤ 0xf3 then
      match rest with
      | c1 :: c2 :: c3 :: rest2 => utf8Cont c1 && utf8Cont c2 && utf8Cont c3 && utf8Valid rest2
      | _ => false
    else if b = 0xf4 then
      match rest with
      | c1 :: c2 :: c3 :: rest2 =>
        (if 0x80 ≤ c1 ∧ c1 ≤ 0x8f then true else false) && utf8Cont c2 && utf8Cont c3 &&
          utf8Valid rest2
      | _ => false
    else false

/-- Mirrors `Reader::read_string`: varint length, raw bytes, UTF-8 validation
(the returned value is the validated byte sequence). -/
def read_string (r : Reader) : Except Error (List Nat) × Reader :=
  match r.read_varint with
  | (.error e, r') => (.error e, r')
  | (.ok length, r') =>
    match r'.read_bytes length with
    | (.error e, r2) => (.error e, r2)
    | (.ok bs, r2) => if utf8Valid bs then (.ok bs, r2) else (.error .invalidUtf8, r2)

/-- Mirrors `Reader::read_length_prefixed_bytes`. -/
def read_length_prefixed_bytes (r : Reader) : Except Error (List Nat) × Reader :=
  match r.read_varint with
  | (.error e, r') => (.error e, r')
  | (.ok length, r') => r'.read_bytes length

/-- Mirrors `Reader::skip_field`. -/
def skip_field (r : Reader) (wire_type : WireType) : Except Error Unit × Reader :=
  match wire_type with
  | .varint | .svarint =>
    match r.read_varint64 with
    | (.error e, r') => (.error e, r')
    | (.ok _, r') => (.ok (), r')
  | .fixed64 =>
    match r.check_available 8 with
    | .error e => (.error e, r)
    | .ok _ => (.ok (), { r with pos := r.pos + 8 })
  | .bytes =>
    match r.read_varint with
    | (.error e, r') => (.error e, r')
    | (.ok length, r') =>
      match r'.check_available length with
      | .error e => (.error e, r')
      | .ok _ => (.ok (), { r' with pos := r'.pos + length })
  | .fixed32 =>
    match r.check_available 4 with
    | .error e => (.error e, r)
    | .ok _ => (.ok (), { r with pos := r.pos + 4 })

/-- Mirrors `Reader::sub_reader`. -/
def sub_reader (r : Reader) (length : Nat) : Except Error Reader × Reader :=
  match r.check_available length with
  | .error e => (.error e, r)
  | .ok _ => (.ok ⟨(r.buffer.drop r.pos).take length, 0⟩, { r with pos := r.pos + length })

end Reader

/-! Type registry (`registry.rs`).  The `RwLock` is dropped (the claims are
about sequential call sequences on the state it guards); a `TypeRegistration`
keeps its id and name, the type-erased encoder/decoder closures being
irrelevant to the indexing claims.  `HashMap` is modelled as an association
list whose `insert` replaces an existing key. -/

/-- Registration record of `registry.rs` (closures omitted). -/
structure TypeRegistration where
  type_id : Nat
  name : String
  deriving DecidableEq

/-- Association-list model of `HashMap::insert`: replaces the entry if the key
is present, appends otherwise. -/
def mapInsert {K V : Type} [DecidableEq K] : List (K × V) → K → V → List (K × V)
  | [], k, v => [(k, v)]
  | (k', v') :: t, k, v => if k' = k then (k, v) :: t else (k', v') :: mapInsert t k v

/-- Association-list model of `HashMap::get`. -/
def mapLookup {K V : Type} [DecidableEq K] : List (K × V) → K → Option V
  | [], _ => none
  | (k', v') :: t, k => if k' = k then some v' else mapLookup t k

/-- Registry state, `RegistryInner` of `registry.rs`. -/
structure RegistryInner where
  by_id : List (Nat × TypeRegistration)
  by_name : List (String × Nat)
  next_type_id : Nat
  deriving DecidableEq

/-- Mirrors `Registry::new`: empty indexes, auto-ID counter at 128. -/
def Registry.new : RegistryInner := ⟨[], [], 128⟩

/-- Mirrors `Registry::register_with_id_inner`: unconditionally inserts into
both indexes and advances the counter past the id when needed. -/
def register_with_id_inner (inner : RegistryInner) (name : String) (type_id : Nat) :
    RegistryInner × Nat :=
  ({ by_id := mapInsert inner.by_id type_id ⟨type_id, name⟩,
     by_name := mapInsert inner.by_name name type_id,
     next_type_id := if inner.next_type_id ≤ type_id then type_id + 1
                     else inner.next_type_id },
   type_id)

/-- Mirrors `Registry::register`: auto-assigns the next id. -/
def Registry.register (inner : RegistryInner) (name : String) : RegistryInner × Nat :=
  register_with_id_inner inner name inner.next_type_id

/-- Mirrors `Registry::register_with_id`. -/
def Registry.register_with_id (inner : RegistryInner) (name : String) (type_id : Nat) :
    RegistryInner × Nat :=
  register_with_id_inner inner name type_id

/-- Mirrors `Registry::register_or_get`; the sequential model collapses the
read-lock fast path and the double-checked write-lock path into one lookup. -/
def Registry.register_or_get (inner : RegistryInner) (name : String) : RegistryInner × Nat :=
  match mapLookup inner.by_name name with
  | some type_id => (inner, type_id)
  | none => register_with_id_inner inner name inner.next_type_id

/-- One registration call of the sequences quantified over by the registry
claim. -/
inductive RegCall where
  | reg (name : String)
  | regWithId (name : String) (type_id : Nat)
  | regOrGet (name : String)
  deriving DecidableEq

/-- State after one call (the returned id is dropped). -/
def applyCall (inner : RegistryInner) : RegCall → RegistryInner
  | .reg n => (Registry.register inner n).1
  | .regWithId n t => (Registry.register_with_id inner n t).1
  | .regOrGet n => (Registry.register_or_get inner n).1

/-- State after a sequence of calls. -/
def applyCalls (inner : RegistryInner) (cs : List RegCall) : RegistryInner :=
  cs.foldl applyCall inner

/-- The bijection invariant as the spec states it: every registration in the
by-ID index has its name mapped back to its id by the by-name index, and every
name in the by-name index maps to an id whose registration carries that name. -/
def RegBijection (inner : RegistryInner) : Prop :=
  (∀ p ∈ inner.by_id, mapLookup inner.by_name p.2.name = some p.1) ∧
  (∀ q ∈ inner.by_name, Option.map TypeRegistration.name (mapLookup inner.by_id q.2) = some q.1)

/-! Stream framing (`stream.rs`).  The wrapped `Read` source is modelled as the
list of bytes it will still deliver; `read` into a 1-byte buffer returns 0
bytes exactly at end of stream, and `read_exact` fails with an I/O error of
kind `UnexpectedEof` when fewer bytes remain than requested. -/

/-- Default 64 MiB guard of `stream.rs`. -/
def DEFAULT_MAX_MESSAGE_SIZE : Nat := 64 * 1024 * 1024

/-- Mirrors `StreamWriter::write_varint` (u64 loop into a 10-byte scratch
buffer); the bytes emitted are the shared LEB128 loop with fuel 10. -/
def stream_write_varint (v : Nat) : List Nat := writeVarintGo 10 v

/-- Loop of `StreamReader::try_read_varint` (`for i in 0..10`), fuel plus index
as in `readVarint32Go`; reading zero bytes at `i = 0` is the clean EOF path,
at `i > 0` the mid-varint EOF path. -/
def tryReadVarintGo : Nat → Nat → Nat → List Nat → Except Error (Option Nat × List Nat)
  | 0, _, _, _ => .error .varintOverflow
  | fuel + 1, i, acc, s =>
    match s with
    | [] => if i = 0 then .ok (none, []) else .error .unexpectedEof
    | b :: t =>
      let acc' := acc ||| (((b &&& 0x7f) <<< (7 * i)) % 2 ^ 64)
      if b &&& 0x80 = 0 then .ok (some acc', t)
      else tryReadVarintGo fuel (i + 1) acc' t

/-- Mirrors `StreamReader::try_read_varint`. -/
def try_read_varint (s : List Nat) : Except Error (Option Nat × List Nat) :=
  tryReadVarintGo 10 0 0 s

/-- Models `std::io::Read::read_exact` on the in-memory source: delivers
exactly `n` bytes or fails with an I/O error of kind `UnexpectedEof`. -/
def read_exact (n : Nat) (s : List Nat) : Except Error (List Nat × List Nat) :=
  if s.length < n then .error (.ioFailure .unexpectedEofKind) else .ok (s.take n, s.drop n)

/-- Mirrors `StreamReader::try_read_message` with maximum message size
`maxSize`: a `None` length is a clean end of stream; an oversized length is the
`Error::custom` size guard; otherwise the payload is read exactly. -/
def try_read_message (maxSize : Nat) (s : List Nat) :
    Except Error (Option (List Nat) × List Nat) :=
  match try_read_varint s with
  | .error e => .error e
  | .ok (none, s') => .ok (none, s')
  | .ok (some length, s') =>
    if maxSize < length then .error .custom
    else
      match read_exact length s' with
      | .error e => .error e
      | .ok (data, s2) => .ok (some data, s2)

/-- Field numbers exercised by the tag round-trip claim. -/
def tagFieldNumbers : List Nat :=
  [1, 2, 3, 4, 5, 6, 7, 8, 9, 10, 11, 12, 13, 14, 15, 16, 100, 1000, 10000]

/-- List of all five wire types. -/
def allWireTypes : List WireType :=
  [.varint, .fixed64, .bytes, .fixed32, .svarint]

/-- C3: for every field number in {1..15} ∪ {16, 100, 1000, 10000} and every
wire type, decoding the encoding of the tag yields the tag back together with
the exact encoded length; fields 1-15 encode to exactly one byte and the listed
fields ≥ 16 to at least two bytes. -/
theorem claim3_tag_roundtrip :
    ∀ f ∈ tagFieldNumbers, ∀ w ∈ allWireTypes,
      decode_compact_tag (FieldTag.encode_compact ⟨f, w⟩) =
        some ⟨f, w, (FieldTag.encode_compact ⟨f, w⟩).length⟩ ∧
      (f ≤ 15 → (FieldTag.encode_compact ⟨f, w⟩).length = 1) ∧
      (16 ≤ f → 2 ≤ (FieldTag.encode_compact ⟨f, w⟩).length) := by
  decide

/-- Witness for C3 at field number 1000 and wire type SVarint. -/
theorem claim3_tag_roundtrip_witness :
    1000 ∈ tagFieldNumbers ∧ WireType.svarint ∈ allWireTypes ∧
      (decode_compact_tag (FieldTag.encode_compact ⟨1000, .svarint⟩) =
        some ⟨1000, .svarint, (FieldTag.encode_compact ⟨1000, .svarint⟩).length⟩ ∧
      (1000 ≤ 15 → (FieldTag.encode_compact ⟨1000, .svarint⟩).length = 1) ∧
      (16 ≤ 1000 → 2 ≤ (FieldTag.encode_compact ⟨1000, .svarint⟩).length)) :=
  ⟨by decide, by decide,
    claim3_tag_roundtrip 1000 (by decide) WireType.svarint (by decide)⟩

/-! Bitwise helper lemmas shared by the proofs below. -/

/-- Xor with an all-ones mask is complement below the mask width. -/
theorem xor_two_pow_sub_one (k : Nat) :
    ∀ x, x < 2 ^ k → x ^^^ (2 ^ k - 1) = 2 ^ k - 1 - x := by
  induction k with
  | zero =>
    intro x hx
    have hx0 : x = 0 := by omega
    subst hx0
    decide
  | succ k ih =>
    intro x hx
    have h2 : (2 : Nat) ^ (k + 1) = 2 * 2 ^ k := by ring
    have hpos : 1 ≤ (2 : Nat) ^ k := Nat.one_le_two_pow
    have hd : (x ^^^ (2 ^ (k + 1) - 1)) / 2 = (x / 2) ^^^ ((2 ^ (k + 1) - 1) / 2) :=
      Nat.xor_div_two
    have hm1 : ((2 : Nat) ^ (k + 1) - 1) / 2 = 2 ^ k - 1 := by omega
    have hq : x / 2 < 2 ^ k := by omega
    have hih := ih (x / 2) hq
    have hmod : ((2 : Nat) ^ (k + 1) - 1) % 2 = 1 := by omega
    have hpar := Nat.xor_mod_two_eq_one (a := x) (b := 2 ^ (k + 1) - 1)
    have hv := Nat.div_add_mod (x ^^^ (2 ^ (k + 1) - 1)) 2
    have hx2 := Nat.mod_two_eq_zero_or_one x
    rw [hm1] at hd
    rw [hih] at hd
    rcases hx2 with h0 | h1
    · have : (x ^^^ (2 ^ (k + 1) - 1)) % 2 = 1 := by
        rw [hpar]
        rw [hmod]
        omega
      omega
    · have hne : ¬ (x ^^^ (2 ^ (k + 1) - 1)) % 2 = 1 := by
        rw [hpar]
        rw [hmod]
        simp [h1]
      have : (x ^^^ (2 ^ (k + 1) - 1)) % 2 = 0 := by omega
      omega

/-- Arithmetic shift right of an in-range signed value is its sign. -/
theorem shiftRight_sign (w : Nat) (n : Int) (h1 : -(2 ^ w) ≤ n) (h2 : n < 2 ^ w) :
    Int.shiftRight n w = if n < 0 then -1 else 0 := by
  have hw : ((2 ^ w : Nat) : Int) = (2 : Int) ^ w := by exact_mod_cast rfl
  cases n with
  | ofNat m =>
    have hm : m < 2 ^ w := by
      have h2a : (m : Int) < (2 : Int) ^ w := h2
      rw [← hw] at h2a
      exact_mod_cast h2a
    have hs : m >>> w = 0 := by
      rw [Nat.shiftRight_eq_div_pow]
      exact Nat.div_eq_of_lt hm
    rw [show Int.shiftRight (Int.ofNat m) w = Int.ofNat (m >>> w) from rfl, hs]
    rw [if_neg (show ¬ (Int.ofNat m < 0) from Int.not_lt.mpr (Int.natCast_nonneg m))]
    rfl
  | negSucc m =>
    have hm : m < 2 ^ w := by
      have h1a : -((2 : Int) ^ w) ≤ -((m : Int) + 1) := by
        rw [← Int.negSucc_eq]
        exact h1
      rw [← hw] at h1a
      have hle : (m : Int) + 1 ≤ ((2 ^ w : Nat) : Int) := by omega
      exact_mod_cast hle
    have hs : m >>> w = 0 := by
      rw [Nat.shiftRight_eq_div_pow]
      exact Nat.div_eq_of_lt hm
    rw [show Int.shiftRight (Int.negSucc m) w = Int.negSucc (m >>> w) from rfl, hs]
    rw [if_pos (Int.negSucc_lt_zero m)]
    rfl

/-- Closed form of the 32-bit ZigZag encoder on nonnegative values. -/
theorem zigzag_encode_32_nonneg (m : Nat) (h : m < 2 ^ 31) :
    zigzag_encode_32 (m : Int) = 2 * m := by
  unfold zigzag_encode_32
  have hsr : Int.shiftRight (m : Int) 31 = 0 := by
    rw [shiftRight_sign 31 (m : Int) (by omega) (by exact_mod_cast h)]
    simp
  rw [hsr]
  have ht0 : toU32 0 = 0 := by decide
  have ht : toU32 ((m : Int) * 2) = 2 * m := by
    unfold toU32
    have : ((m : Int) * 2) % (2 ^ 32 : Int) = 2 * m := by omega
    rw [this]
    omega
  rw [ht0, ht, Nat.xor_zero]

/-- Closed form of the 32-bit ZigZag encoder on negative values. -/
theorem zigzag_encode_32_neg (m : Nat) (h1 : 1 ≤ m) (h2 : m ≤ 2 ^ 31) :
    zigzag_encode_32 (-(m : Int)) = 2 * m - 1 := by
  unfold zigzag_encode_32
  have hsr : Int.shiftRight (-(m : Int)) 31 = -1 := by
    rw [shiftRight_sign 31 (-(m : Int)) (by push_cast; omega) (by push_cast; omega)]
    simp [h1]
    omega
  rw [hsr]
  have ht1 : toU32 (-1) = 2 ^ 32 - 1 := by decide
  have ht : toU32 (-(m : Int) * 2) = 2 ^ 32 - 2 * m := by
    unfold toU32
    have : (-(m : Int) * 2) % (2 ^ 32 : Int) = ((2 ^ 32 - 2 * m : Nat) : Int) := by push_cast; omega
    rw [this]
    omega
  rw [ht1, ht]
  rw [xor_two_pow_sub_one 32 (2 ^ 32 - 2 * m) (by omega)]
  omega

/-- Closed form of the 32-bit ZigZag decoder on even patterns. -/
theorem zigzag_decode_32_even (m : Nat) (h : m < 2 ^ 31) :
    zigzag_decode_32 (2 * m) = (m : Int) := by
  unfold zigzag_decode_32
  have hand : (2 * m) &&& 1 = 0 := by
    rw [Nat.and_one_is_mod]
    omega
  have hsh : (2 * m) >>> 1 = m := by
    rw [Nat.shiftRight_eq_div_pow]
    omega
  rw [hand, hsh]
  have ht0 : toU32 (-((0 : Nat) : Int)) = 0 := by decide
  rw [ht0, Nat.xor_zero]
  unfold fromU32
  rw [if_pos h]

/-- Closed form of the 32-bit ZigZag decoder on odd patterns. -/
theorem zigzag_decode_32_odd (m : Nat) (h1 : 1 ≤ m) (h2 : m ≤ 2 ^ 31) :
    zigzag_decode_32 (2 * m - 1) = -(m : Int) := by
  unfold zigzag_decode_32
  have hand : (2 * m - 1) &&& 1 = 1 := by
    rw [Nat.and_one_is_mod]
    omega
  have hsh : (2 * m - 1) >>> 1 = m - 1 := by
    rw [Nat.shiftRight_eq_div_pow]
    omega
  rw [hand, hsh]
  have ht1 : toU32 (-((1 : Nat) : Int)) = 2 ^ 32 - 1 := by decide
  rw [ht1]
  rw [xor_two_pow_sub_one 32 (m - 1) (by omega)]
  unfold fromU32
  rw [if_neg (by omega)]
  push_cast
  omega

/-- Closed form of the 64-bit ZigZag encoder on nonnegative values. -/
theorem zigzag_encode_64_nonneg (m : Nat) (h : m < 2 ^ 63) :
    zigzag_encode_64 (m : Int) = 2 * m := by
  unfold zigzag_encode_64
  have hsr : Int.shiftRight (m : Int) 63 = 0 := by
    rw [shiftRight_sign 63 (m : Int) (by omega) (by exact_mod_cast h)]
    simp
  rw [hsr]
  have ht0 : toU64 0 = 0 := by decide
  have ht : toU64 ((m : Int) * 2) = 2 * m := by
    unfold toU64
    have : ((m : Int) * 2) % (2 ^ 64 : Int) = 2 * m := by omega
    rw [this]
    omega
  rw [ht0, ht, Nat.xor_zero]

/-- Closed form of the 64-bit ZigZag encoder on negative values. -/
theorem zigzag_encode_64_neg (m : Nat) (h1 : 1 ≤ m) (h2 : m ≤ 2 ^ 63) :
    zigzag_encode_64 (-(m : Int)) = 2 * m - 1 := by
  unfold zigzag_encode_64
  have hsr : Int.shiftRight (-(m : Int)) 63 = -1 := by
    rw [shiftRight_sign 63 (-(m : Int)) (by push_cast; omega) (by push_cast; omega)]
    simp [h1]
    omega
  rw [hsr]
  have ht1 : toU64 (-1) = 2 ^ 64 - 1 := by decide
  have ht : toU64 (-(m : Int) * 2) = 2 ^ 64 - 2 * m := by
    unfold toU64
    have : (-(m : Int) * 2) % (2 ^ 64 : Int) = ((2 ^ 64 - 2 * m : Nat) : Int) := by push_cast; omega
    rw [this]
    omega
  rw [ht1, ht]
  rw [xor_two_pow_sub_one 64 (2 ^ 64 - 2 * m) (by omega)]
  omega

/-- Closed form of the 64-bit ZigZag decoder on even patterns. -/
theorem zigzag_decode_64_even (m : Nat) (h : m < 2 ^ 63) :
    zigzag_decode_64 (2 * m) = (m : Int) := by
  unfold zigzag_decode_64
  have hand : (2 * m) &&& 1 = 0 := by
    rw [Nat.and_one_is_mod]
    omega
  have hsh : (2 * m) >>> 1 = m := by
    rw [Nat.shiftRight_eq_div_pow]
    omega
  rw [hand, hsh]
  have ht0 : toU64 (-((0 : Nat) : Int)) = 0 := by decide
  rw [ht0, Nat.xor_zero]
  unfold fromU64
  rw [if_pos h]

/-- Closed form of the 64-bit ZigZag decoder on odd patterns. -/
theorem zigzag_decode_64_odd (m : Nat) (h1 : 1 ≤ m) (h2 : m ≤ 2 ^ 63) :
    zigzag_decode_64 (2 * m - 1) = -(m : Int) := by
  unfold zigzag_decode_64
  have hand : (2 * m - 1) &&& 1 = 1 := by
    rw [Nat.and_one_is_mod]
    omega
  have hsh : (2 * m - 1) >>> 1 = m - 1 := by
    rw [Nat.shiftRight_eq_div_pow]
    omega
  rw [hand, hsh]
  have ht1 : toU64 (-((1 : Nat) : Int)) = 2 ^ 64 - 1 := by decide
  rw [ht1]
  rw [xor_two_pow_sub_one 64 (m - 1) (by omega)]
  unfold fromU64
  rw [if_neg (by omega)]
  push_cast
  omega

/-- C6: ZigZag decode inverts ZigZag encode on the full signed 32-bit and
64-bit ranges (minimum and maximum included), and the encoder maps
0, -1, 1, -2, 2 to 0, 1, 2, 3, 4. -/
theorem claim6_zigzag_roundtrip :
    (∀ n : Int, -(2 ^ 31) ≤ n → n < 2 ^ 31 →
      zigzag_decode_32 (zigzag_encode_32 n) = n) ∧
    (∀ n : Int, -(2 ^ 63) ≤ n → n < 2 ^ 63 →
      zigzag_decode_64 (zigzag_encode_64 n) = n) ∧
    zigzag_encode_32 0 = 0 ∧ zigzag_encode_32 (-1) = 1 ∧ zigzag_encode_32 1 = 2 ∧
    zigzag_encode_32 (-2) = 3 ∧ zigzag_encode_32 2 = 4 := by
  refine ⟨?_, ?_, by decide, by decide, by decide, by decide, by decide⟩
  · intro n hlo hhi
    by_cases hn : 0 ≤ n
    · have hm : n = ((n.toNat : Nat) : Int) := by omega
      have hlt : n.toNat < 2 ^ 31 := by omega
      rw [hm, zigzag_encode_32_nonneg n.toNat hlt, zigzag_decode_32_even n.toNat hlt]
    · have hm : n = -(((-n).toNat : Nat) : Int) := by omega
      have h1 : 1 ≤ (-n).toNat := by omega
      have h2 : (-n).toNat ≤ 2 ^ 31 := by omega
      rw [hm, zigzag_encode_32_neg (-n).toNat h1 h2, zigzag_decode_32_odd (-n).toNat h1 h2]
  · intro n hlo hhi
    by_cases hn : 0 ≤ n
    · have hm : n = ((n.toNat : Nat) : Int) := by omega
      have hlt : n.toNat < 2 ^ 63 := by omega
      rw [hm, zigzag_encode_64_nonneg n.toNat hlt, zigzag_decode_64_even n.toNat hlt]
    · have hm : n = -(((-n).toNat : Nat) : Int) := by omega
      have h1 : 1 ≤ (-n).toNat := by omega
      have h2 : (-n).toNat ≤ 2 ^ 63 := by omega
      rw [hm, zigzag_encode_64_neg (-n).toNat h1 h2, zigzag_decode_64_odd (-n).toNat h1 h2]

/-- Witness for C6 at the 32-bit minimum and the 64-bit minimum. -/
theorem claim6_zigzag_roundtrip_witness :
    (-(2 ^ 31) ≤ (-(2 ^ 31) : Int) ∧ (-(2 ^ 31) : Int) < 2 ^ 31 ∧
      zigzag_decode_32 (zigzag_encode_32 (-(2 ^ 31))) = -(2 ^ 31)) ∧
    (-(2 ^ 63) ≤ (-(2 ^ 63) : Int) ∧ (-(2 ^ 63) : Int) < 2 ^ 63 ∧
      zigzag_decode_64 (zigzag_encode_64 (-(2 ^ 63))) = -(2 ^ 63)) :=
  ⟨⟨by omega, by omega, claim6_zigzag_roundtrip.1 (-(2 ^ 31)) (by omega) (by omega)⟩,
   ⟨by omega, by omega, claim6_zigzag_roundtrip.2.1 (-(2 ^ 63)) (by omega) (by omega)⟩⟩

/-! Helper lemmas for the LEB128 codec proofs. -/

/-- Mask by 0x7f is mod 128. -/
theorem and_127 (x : Nat) : x &&& 127 = x % 128 := by
  have h : (127 : Nat) = 2 ^ 7 - 1 := by norm_num
  rw [h, Nat.and_pow_two_sub_one_eq_mod]

/-- Mask by 0xff is mod 256. -/
theorem and_255 (x : Nat) : x &&& 255 = x % 256 := by
  have h : (255 : Nat) = 2 ^ 8 - 1 := by norm_num
  rw [h, Nat.and_pow_two_sub_one_eq_mod]

/-- Mask by 0x0f is mod 16. -/
theorem and_15 (x : Nat) : x &&& 15 = x % 16 := by
  have h : (15 : Nat) = 2 ^ 4 - 1 := by norm_num
  rw [h, Nat.and_pow_two_sub_one_eq_mod]

/-- A value below a power of two has zero conjunction with it. -/
theorem and_two_pow_eq_zero {y k : Nat} (h : y < 2 ^ k) : y &&& 2 ^ k = 0 := by
  apply Nat.eq_of_testBit_eq
  intro j
  rw [Nat.testBit_and, Nat.zero_testBit, Nat.testBit_two_pow]
  rcases eq_or_ne k j with rfl | hne
  · simp [Nat.testBit_lt_two_pow h]
  · simp [hne]

/-- A value below 128 has zero conjunction with 0x80. -/
theorem and_128_eq_zero {y : Nat} (h : y < 128) : y &&& 128 = 0 := by
  have h7 : (128 : Nat) = 2 ^ 7 := by norm_num
  rw [h7]
  exact and_two_pow_eq_zero (by omega)

/-- Disjoint `or` of a low part and a shifted part is addition. -/
theorem lor_eq_add_mul_pow {a x k : Nat} (h : a < 2 ^ k) :
    a ||| x * 2 ^ k = a + x * 2 ^ k := by
  rw [Nat.lor_comm, mul_comm x (2 ^ k), ← Nat.mul_add_lt_is_or h x]
  ring

/-- Or-ing the continuation bit into a 7-bit group is adding 128. -/
theorem lor_128_eq_add {c : Nat} (h : c < 128) : c ||| 128 = c + 128 := by
  have h2 : (128 : Nat) = 1 * 2 ^ 7 := by norm_num
  rw [h2, lor_eq_add_mul_pow (by omega)]

/-- Properties of a continuation byte `c ||| 0x80` built from `c < 128`. -/
theorem cont_byte_props {c : Nat} (h : c < 128) :
    (c ||| 128) &&& 128 = 128 ∧ (c ||| 128) &&& 127 = c ∧ (c ||| 128) % 128 = c := by
  refine ⟨?_, ?_, ?_⟩
  · rw [Nat.and_distrib_right, and_128_eq_zero h, Nat.and_self]
    simp
  · rw [Nat.and_distrib_right, and_127, Nat.mod_eq_of_lt h,
      show (128 : Nat) &&& 127 = 0 from by decide]
    simp
  · rw [lor_128_eq_add h]
    omega

/-- An upper-nibble-free byte has a small low 7-bit group. -/
theorem mod128_lt_16_of_nibble {b : Nat} (h : b &&& 240 = 0) : b % 128 < 16 := by
  have h240 : (240 : Nat) ||| 15 = 255 := by decide
  have h1 : b &&& 255 = (b &&& 240) ||| (b &&& 15) := by
    rw [← Nat.and_or_distrib_left, h240]
  rw [h, and_255, and_15] at h1
  simp at h1
  omega

/-- Value of a LEB128 byte sequence: little-endian base-128 of the 7-bit
groups. -/
def lebVal : List Nat → Nat
  | [] => 0
  | b :: t => b % 128 + 128 * lebVal t

/-- Characterization of the LEB128 emission loop: given enough fuel, the output
splits into continuation bytes and a final byte, recomposes to the input value,
and the final byte is the input shifted past the continuation groups; moreover
a multi-byte encoding only arises for values reaching the groups it uses. -/
theorem writeVarintGo_spec :
    ∀ fuel v, v < 2 ^ (7 * fuel + 7) →
      ∃ xs y, writeVarintGo fuel v = xs ++ [y] ∧
        (∀ x ∈ xs, x &&& 0x80 ≠ 0) ∧ y ≤ 127 ∧ lebVal (xs ++ [y]) = v ∧
        y = v >>> (7 * xs.length) ∧ (xs = [] ∨ 2 ^ (7 * xs.length) ≤ v) := by
  intro fuel
  induction fuel with
  | zero =>
    intro v hv
    have hv' : v < 128 := by
      have : (2 : Nat) ^ (7 * 0 + 7) = 128 := by norm_num
      omega
    exact ⟨[], v, rfl, by simp, by omega,
      by simp [lebVal, Nat.mod_eq_of_lt hv'],
      by simp, Or.inl rfl⟩
  | succ fuel ih =>
    intro v hv
    by_cases hbig : 0x7f < v
    · have hstep : writeVarintGo (fuel + 1) v =
          ((v &&& 0x7f) ||| 0x80) :: writeVarintGo fuel (v >>> 7) := by
        rw [writeVarintGo, if_pos hbig]
      have h128 : (2 : Nat) ^ 7 = 128 := by norm_num
      have hpow : (2 : Nat) ^ (7 * (fuel + 1) + 7) = 2 ^ (7 * fuel + 7) * 128 := by
        rw [show 7 * (fuel + 1) + 7 = (7 * fuel + 7) + 7 by ring, pow_add]
        norm_num
      have hv7 : v >>> 7 < 2 ^ (7 * fuel + 7) := by
        rw [Nat.shiftRight_eq_div_pow, h128]
        rw [Nat.div_lt_iff_lt_mul (by norm_num : (0 : Nat) < 128)]
        omega
      obtain ⟨xs, y, heq, hcont, hy, hval, hsh, hmin⟩ := ih (v >>> 7) hv7
      have hc : v &&& 0x7f = v % 128 := and_127 v
      have hcl : v % 128 < 128 := Nat.mod_lt _ (by norm_num)
      have hb := cont_byte_props hcl
      refine ⟨((v &&& 0x7f) ||| 0x80) :: xs, y, ?_, ?_, hy, ?_, ?_, ?_⟩
      · rw [hstep, heq]
        rfl
      · intro x hx
        rcases List.mem_cons.mp hx with hx | hx
        · subst hx
          rw [hc, hb.1]
          norm_num
        · exact hcont x hx
      · have hdiv : v >>> 7 = v / 128 := by
          rw [Nat.shiftRight_eq_div_pow, h128]
        show lebVal ((((v &&& 0x7f) ||| 0x80) :: xs) ++ [y]) = v
        rw [List.cons_append, lebVal, hc, hb.2.2, hval, hdiv]
        omega
      · show y = v >>> (7 * (xs.length + 1))
        rw [show 7 * (xs.length + 1) = 7 + 7 * xs.length by ring, Nat.shiftRight_add]
        exact hsh
      · right
        have hdiv : v >>> 7 = v / 128 := by
          rw [Nat.shiftRight_eq_div_pow, h128]
        have hp : (2 : Nat) ^ (7 * (xs.length + 1)) = 2 ^ (7 * xs.length) * 128 := by
          rw [show 7 * (xs.length + 1) = 7 * xs.length + 7 by ring, pow_add]
          norm_num
        show 2 ^ (7 * (xs.length + 1)) ≤ v
        rcases hmin with hnil | hge
        · subst hnil
          norm_num
          omega
        · rw [hdiv] at hge
          have hmul := (Nat.le_div_iff_mul_le (by norm_num : 0 < 128)).mp hge
          omega
    · have hsmall : v ≤ 127 := by omega
      have hstep : writeVarintGo (fuel + 1) v = [v] := by
        rw [writeVarintGo, if_neg hbig]
      exact ⟨[], v, hstep, by simp, hsmall,
        by simp [lebVal, Nat.mod_eq_of_lt (by omega : v < 128)],
        by simp, Or.inl rfl⟩

/-- Power step used throughout the varint proofs. -/
theorem pow7_succ (i : Nat) : (2 : Nat) ^ (7 * (i + 1)) = 2 ^ (7 * i) * 128 := by
  rw [show 7 * (i + 1) = 7 * i + 7 by ring, pow_add]
  norm_num

/-- Characterization of `Writer::write_varint` for 32-bit values. -/
theorem write_varint_spec (v : Nat) (hv : v < 2 ^ 32) :
    ∃ xs y, Writer.write_varint v = xs ++ [y] ∧
      (∀ x ∈ xs, x &&& 0x80 ≠ 0) ∧ y &&& 0x80 = 0 ∧
      xs.length ≤ 4 ∧ (xs.length = 4 → y &&& 0xf0 = 0) ∧
      lebVal (xs ++ [y]) = v := by
  obtain ⟨xs, y, heq, hcont, hy, hval, hsh, hmin⟩ :=
    writeVarintGo_spec 5 v (by
      have h42 : (2 : Nat) ^ 32 ≤ 2 ^ (7 * 5 + 7) := by norm_num
      omega)
  have hlen : xs.length ≤ 4 := by
    rcases hmin with hnil | hge
    · simp [hnil]
    · by_contra hlen5
      have h5 : 35 ≤ 7 * xs.length := by omega
      have hp : (2 : Nat) ^ 35 ≤ 2 ^ (7 * xs.length) := Nat.pow_le_pow_right (by norm_num) h5
      have h35 : (2 : Nat) ^ 32 < 2 ^ 35 := by norm_num
      omega
  refine ⟨xs, y, heq, hcont, and_128_eq_zero (by omega), hlen, ?_, hval⟩
  intro h4
  rw [h4] at hsh
  have hdiv : y = v / 2 ^ 28 := by
    rw [hsh, Nat.shiftRight_eq_div_pow]
  have hy16 : y < 16 := by
    rw [hdiv, Nat.div_lt_iff_lt_mul (by positivity)]
    have h16 : (16 : Nat) * 2 ^ 28 = 2 ^ 32 := by norm_num
    omega
  interval_cases y <;> decide

/-- Characterization of `Writer::write_varint64` for 64-bit values. -/
theorem write_varint64_spec (v : Nat) (hv : v < 2 ^ 64) :
    ∃ xs y, Writer.write_varint64 v = xs ++ [y] ∧
      (∀ x ∈ xs, x &&& 0x80 ≠ 0) ∧ y &&& 0x80 = 0 ∧
      xs.length ≤ 9 ∧ (xs.length = 9 → y ≤ 1) ∧
      lebVal (xs ++ [y]) = v := by
  obtain ⟨xs, y, heq, hcont, hy, hval, hsh, hmin⟩ :=
    writeVarintGo_spec 10 v (by
      have h77 : (2 : Nat) ^ 64 ≤ 2 ^ (7 * 10 + 7) := by norm_num
      omega)
  have hlen : xs.length ≤ 9 := by
    rcases hmin with hnil | hge
    · simp [hnil]
    · by_contra hlen10
      have h10 : 70 ≤ 7 * xs.length := by omega
      have hp : (2 : Nat) ^ 70 ≤ 2 ^ (7 * xs.length) := Nat.pow_le_pow_right (by norm_num) h10
      have h70 : (2 : Nat) ^ 64 < 2 ^ 70 := by norm_num
      omega
  refine ⟨xs, y, heq, hcont, and_128_eq_zero (by omega), hlen, ?_, hval⟩
  intro h9
  rw [h9] at hsh
  have hdiv : y = v / 2 ^ 63 := by
    rw [hsh, Nat.shiftRight_eq_div_pow]
  rw [hdiv]
  have h2 : (2 : Nat) * 2 ^ 63 = 2 ^ 64 := by norm_num
  have hlt : v / 2 ^ 63 < 2 :=
    (Nat.div_lt_iff_lt_mul (by positivity)).mpr (by omega)
  omega

/-- Splitting a `drop` that is known to be a cons. -/
theorem drop_cons_parts {l : List Nat} {p a : Nat} {t : List Nat}
    (h : l.drop p = a :: t) :
    p < l.length ∧ l.getD p 0 = a ∧ l.drop (p + 1) = t := by
  have hp : p < l.length := by
    have hlen := congrArg List.length h
    simp [List.length_drop] at hlen
    omega
  have h2 := List.drop_eq_getElem_cons (l := l) (n := p) hp
  rw [h] at h2
  injection h2 with h3 h4
  refine ⟨hp, ?_, h4.symm⟩
  rw [List.getD_eq_getElem?_getD, List.getElem?_eq_getElem hp]
  simp only [Option.getD_some]
  exact h3.symm

/-- Bound for one accumulated 7-bit group in the 32-bit loop. -/
theorem group_bound32 {b i : Nat} (hi : i ≤ 4) (hnib : i = 4 → b &&& 0xf0 = 0) :
    (b % 128) * 2 ^ (7 * i) < 2 ^ 32 := by
  have hb : b % 128 < 128 := Nat.mod_lt _ (by norm_num)
  rcases (by omega : i ≤ 3 ∨ i = 4) with h3 | h4
  · have hp : (2 : Nat) ^ (7 * i) ≤ 2 ^ 21 := Nat.pow_le_pow_right (by norm_num) (by omega)
    have hm : (b % 128) * 2 ^ (7 * i) ≤ 127 * 2 ^ (7 * i) :=
      Nat.mul_le_mul_right _ (by omega)
    have h21 : (2 : Nat) ^ 21 = 2097152 := by norm_num
    have h32 : (2 : Nat) ^ 32 = 4294967296 := by norm_num
    have hP : 1 ≤ (2 : Nat) ^ (7 * i) := Nat.one_le_two_pow
    omega
  · have h16 := mod128_lt_16_of_nibble (hnib h4)
    have he : (16 : Nat) * 2 ^ (7 * i) = 2 ^ 32 := by subst h4; norm_num
    have hm : (b % 128) * 2 ^ (7 * i) ≤ 15 * 2 ^ (7 * i) :=
      Nat.mul_le_mul_right _ (by omega)
    have hP : 1 ≤ (2 : Nat) ^ (7 * i) := Nat.one_le_two_pow
    omega

/-- Bound for one accumulated 7-bit group in the 64-bit loop. -/
theorem group_bound64 {b i : Nat} (hi : i ≤ 9) (h9 : i = 9 → b ≤ 1) :
    (b % 128) * 2 ^ (7 * i) < 2 ^ 64 := by
  have hb : b % 128 < 128 := Nat.mod_lt _ (by norm_num)
  rcases (by omega : i ≤ 8 ∨ i = 9) with h8 | h9'
  · have hp : (2 : Nat) ^ (7 * i) ≤ 2 ^ 56 := Nat.pow_le_pow_right (by norm_num) (by omega)
    have hm : (b % 128) * 2 ^ (7 * i) ≤ 127 * 2 ^ (7 * i) :=
      Nat.mul_le_mul_right _ (by omega)
    have h56 : (2 : Nat) ^ 56 = 72057594037927936 := by norm_num
    have h64 : (2 : Nat) ^ 64 = 18446744073709551616 := by norm_num
    have hP : 1 ≤ (2 : Nat) ^ (7 * i) := Nat.one_le_two_pow
    omega
  · have hb1 : b ≤ 1 := h9 h9'
    have he : (2 : Nat) * 2 ^ (7 * i) = 2 ^ 64 := by subst h9'; norm_num
    have hm : (b % 128) * 2 ^ (7 * i) ≤ 1 * 2 ^ (7 * i) :=
      Nat.mul_le_mul_right _ (by omega)
    have hP : 1 ≤ (2 : Nat) ^ (7 * i) := Nat.one_le_two_pow
    omega

/-- Success run of the 32-bit varint read loop: positioned before continuation
bytes `xs` and final byte `y`, it returns the recomposed value shifted into the
accumulator and stops right after `y`. -/
theorem readVarint32Go_ok (xs : List Nat) :
    ∀ (i acc fuel y : Nat) (r : Reader) (rest : List Nat),
      i + fuel = 10 →
      r.buffer.drop r.pos = xs ++ y :: rest →
      (∀ x ∈ xs, x &&& 0x80 ≠ 0) →
      y &&& 0x80 = 0 →
      i + xs.length ≤ 4 →
      (i + xs.length = 4 → y &&& 0xf0 = 0) →
      acc < 2 ^ (7 * i) →
      Reader.readVarint32Go fuel i acc r =
        (.ok (acc + 2 ^ (7 * i) * lebVal (xs ++ [y])),
          ⟨r.buffer, r.pos + xs.length + 1⟩) := by
  induction xs with
  | nil =>
    intro i acc fuel y r rest hfuel hdrop hcont hy hle hnib hacc
    obtain ⟨f, rfl⟩ : ∃ f, fuel = f + 1 := ⟨fuel - 1, by omega⟩
    rw [List.nil_append] at hdrop
    obtain ⟨hp, hgetD, hdrop1⟩ := drop_cons_parts hdrop
    have hnotover : ¬ (r.pos + 1 > r.buffer.length) := by omega
    have hni : ¬ (i = 4 ∧ y &&& 0xf0 ≠ 0) := by
      rintro ⟨h4, hnz⟩
      exact hnz (hnib (by simpa using h4))
    have hc : y &&& 0x7f = y % 128 := and_127 y
    have hs : (y % 128) <<< (7 * i) = (y % 128) * 2 ^ (7 * i) := Nat.shiftLeft_eq _ _
    have hbound : (y % 128) * 2 ^ (7 * i) < 2 ^ 32 :=
      group_bound32 (by omega) (fun h4 => hnib (by simpa using h4))
    simp only [Reader.readVarint32Go, hgetD, if_neg hnotover, if_neg hni, hc, hs,
      Nat.mod_eq_of_lt hbound, lor_eq_add_mul_pow hacc, if_pos hy]
    have hvaleq : acc + y % 128 * 2 ^ (7 * i) =
        acc + 2 ^ (7 * i) * lebVal ([] ++ [y]) := by
      simp [lebVal]
      ring
    rw [hvaleq]
    rfl
  | cons x xs' ih =>
    intro i acc fuel y r rest hfuel hdrop hcont hy hle hnib hacc
    obtain ⟨f, rfl⟩ : ∃ f, fuel = f + 1 := ⟨fuel - 1, by omega⟩
    rw [List.cons_append] at hdrop
    obtain ⟨hp, hgetD, hdrop1⟩ := drop_cons_parts hdrop
    have hxc : x &&& 0x80 ≠ 0 := hcont x (by simp)
    have hlen : i + (xs'.length + 1) ≤ 4 := by simpa using hle
    have hnotover : ¬ (r.pos + 1 > r.buffer.length) := by omega
    have hni : ¬ (i = 4 ∧ x &&& 0xf0 ≠ 0) := by
      rintro ⟨h4, _⟩
      omega
    have hc : x &&& 0x7f = x % 128 := and_127 x
    have hs : (x % 128) <<< (7 * i) = (x % 128) * 2 ^ (7 * i) := Nat.shiftLeft_eq _ _
    have hbound : (x % 128) * 2 ^ (7 * i) < 2 ^ 32 :=
      group_bound32 (by omega) (by omega)
    have hxm : x % 128 < 128 := Nat.mod_lt _ (by norm_num)
    have hacc2 : acc + (x % 128) * 2 ^ (7 * i) < 2 ^ (7 * (i + 1)) := by
      have hstep := pow7_succ i
      have hmb : (x % 128) * 2 ^ (7 * i) ≤ 127 * 2 ^ (7 * i) :=
        Nat.mul_le_mul_right _ (by omega)
      omega
    have hrec := ih (i + 1) (acc + (x % 128) * 2 ^ (7 * i)) f y
      ⟨r.buffer, r.pos + 1⟩ rest (by omega) hdrop1
      (fun z hz => hcont z (by simp [hz]))
      hy (by omega)
      (fun h4 => hnib (by simp only [List.length_cons]; omega))
      hacc2
    simp only [Reader.readVarint32Go, hgetD, if_neg hnotover, if_neg hni, hc, hs,
      Nat.mod_eq_of_lt hbound, lor_eq_add_mul_pow hacc, if_neg hxc]
    rw [hrec]
    have hvaleq : acc + x % 128 * 2 ^ (7 * i) + 2 ^ (7 * (i + 1)) * lebVal (xs' ++ [y]) =
        acc + 2 ^ (7 * i) * lebVal ((x :: xs') ++ [y]) := by
      rw [pow7_succ i]
      simp [lebVal, List.cons_append]
      ring
    have hposeq : r.pos + 1 + xs'.length + 1 = r.pos + (x :: xs').length + 1 := by
      simp only [List.length_cons]
      omega
    rw [hvaleq, hposeq]

/-- Success run of the 64-bit varint read loop. -/
theorem readVarint64Go_ok (xs : List Nat) :
    ∀ (i acc fuel y : Nat) (r : Reader) (rest : List Nat),
      i + fuel = 10 →
      r.buffer.drop r.pos = xs ++ y :: rest →
      (∀ x ∈ xs, x &&& 0x80 ≠ 0) →
      y &&& 0x80 = 0 →
      i + xs.length ≤ 9 →
      (i + xs.length = 9 → y ≤ 1) →
      acc < 2 ^ (7 * i) →
      Reader.readVarint64Go fuel i acc r =
        (.ok (acc + 2 ^ (7 * i) * lebVal (xs ++ [y])),
          ⟨r.buffer, r.pos + xs.length + 1⟩) := by
  induction xs with
  | nil =>
    intro i acc fuel y r rest hfuel hdrop hcont hy hle hnib hacc
    obtain ⟨f, rfl⟩ : ∃ f, fuel = f + 1 := ⟨fuel - 1, by omega⟩
    rw [List.nil_append] at hdrop
    obtain ⟨hp, hgetD, hdrop1⟩ := drop_cons_parts hdrop
    have hnotover : ¬ (r.pos + 1 > r.buffer.length) := by omega
    have hni1 : ¬ (i = 9 ∧ 0x80 ≤ y) := by
      rintro ⟨h9, hge⟩
      have := hnib (by simpa using h9)
      omega
    have hni2 : ¬ (i = 9 ∧ 1 < y) := by
      rintro ⟨h9, hgt⟩
      have := hnib (by simpa using h9)
      omega
    have hc : y &&& 0x7f = y % 128 := and_127 y
    have hs : (y % 128) <<< (7 * i) = (y % 128) * 2 ^ (7 * i) := Nat.shiftLeft_eq _ _
    have hbound : (y % 128) * 2 ^ (7 * i) < 2 ^ 64 :=
      group_bound64 (by omega) (fun h9 => hnib (by simpa using h9))
    simp only [Reader.readVarint64Go, hgetD, if_neg hnotover, if_neg hni1, if_neg hni2,
      hc, hs, Nat.mod_eq_of_lt hbound, lor_eq_add_mul_pow hacc, if_pos hy]
    have hvaleq : acc + y % 128 * 2 ^ (7 * i) =
        acc + 2 ^ (7 * i) * lebVal ([] ++ [y]) := by
      simp [lebVal]
      ring
    rw [hvaleq]
    rfl
  | cons x xs' ih =>
    intro i acc fuel y r rest hfuel hdrop hcont hy hle hnib hacc
    obtain ⟨f, rfl⟩ : ∃ f, fuel = f + 1 := ⟨fuel - 1, by omega⟩
    rw [List.cons_append] at hdrop
    obtain ⟨hp, hgetD, hdrop1⟩ := drop_cons_parts hdrop
    have hxc : x &&& 0x80 ≠ 0 := hcont x (by simp)
    have hlen : i + (xs'.length + 1) ≤ 9 := by simpa using hle
    have hnotover : ¬ (r.pos + 1 > r.buffer.length) := by omega
    have hni1 : ¬ (i = 9 ∧ 0x80 ≤ x) := by
      rintro ⟨h9, _⟩
      omega
    have hni2 : ¬ (i = 9 ∧ 1 < x) := by
      rintro ⟨h9, _⟩
      omega
    have hc : x &&& 0x7f = x % 128 := and_127 x
    have hs : (x % 128) <<< (7 * i) = (x % 128) * 2 ^ (7 * i) := Nat.shiftLeft_eq _ _
    have hbound : (x % 128) * 2 ^ (7 * i) < 2 ^ 64 :=
      group_bound64 (by omega) (by omega)
    have hxm : x % 128 < 128 := Nat.mod_lt _ (by norm_num)
    have hacc2 : acc + (x % 128) * 2 ^ (7 * i) < 2 ^ (7 * (i + 1)) := by
      have hstep := pow7_succ i
      have hmb : (x % 128) * 2 ^ (7 * i) ≤ 127 * 2 ^ (7 * i) :=
        Nat.mul_le_mul_right _ (by omega)
      omega
    have hrec := ih (i + 1) (acc + (x % 128) * 2 ^ (7 * i)) f y
      ⟨r.buffer, r.pos + 1⟩ rest (by omega) hdrop1
      (fun z hz => hcont z (by simp [hz]))
      hy (by omega)
      (fun h9 => hnib (by simp only [List.length_cons]; omega))
      hacc2
    simp only [Reader.readVarint64Go, hgetD, if_neg hnotover, if_neg hni1, if_neg hni2,
      hc, hs, Nat.mod_eq_of_lt hbound, lor_eq_add_mul_pow hacc, if_neg hxc]
    rw [hrec]
    have hvaleq : acc + x % 128 * 2 ^ (7 * i) + 2 ^ (7 * (i + 1)) * lebVal (xs' ++ [y]) =
        acc + 2 ^ (7 * i) * lebVal ((x :: xs') ++ [y]) := by
      rw [pow7_succ i]
      simp [lebVal, List.cons_append]
      ring
    have hposeq : r.pos + 1 + xs'.length + 1 = r.pos + (x :: xs').length + 1 := by
      simp only [List.length_cons]
      omega
    rw [hvaleq, hposeq]

/-- Overflow run of the 32-bit varint read loop: four continuation bytes then a
byte with a nonzero upper nibble. -/
theorem readVarint32Go_err (xs : List Nat) :
    ∀ (i acc fuel b : Nat) (r : Reader) (rest : List Nat),
      i + fuel = 10 →
      r.buffer.drop r.pos = xs ++ b :: rest →
      (∀ x ∈ xs, x &&& 0x80 ≠ 0) →
      i + xs.length = 4 →
      b &&& 0xf0 ≠ 0 →
      Reader.readVarint32Go fuel i acc r =
        (.error .varintOverflow, ⟨r.buffer, r.pos + xs.length + 1⟩) := by
  induction xs with
  | nil =>
    intro i acc fuel b r rest hfuel hdrop hcont hi hb
    obtain ⟨f, rfl⟩ : ∃ f, fuel = f + 1 := ⟨fuel - 1, by omega⟩
    rw [List.nil_append] at hdrop
    obtain ⟨hp, hgetD, _⟩ := drop_cons_parts hdrop
    have hnotover : ¬ (r.pos + 1 > r.buffer.length) := by omega
    have h4 : i = 4 := by simpa using hi
    simp only [Reader.readVarint64Go, Reader.readVarint32Go, hgetD, if_neg hnotover,
      if_pos (And.intro h4 hb)]
    rfl
  | cons x xs' ih =>
    intro i acc fuel b r rest hfuel hdrop hcont hi hb
    obtain ⟨f, rfl⟩ : ∃ f, fuel = f + 1 := ⟨fuel - 1, by omega⟩
    rw [List.cons_append] at hdrop
    obtain ⟨hp, hgetD, hdrop1⟩ := drop_cons_parts hdrop
    have hxc : x &&& 0x80 ≠ 0 := hcont x (by simp)
    have hlen : i + (xs'.length + 1) = 4 := by simpa using hi
    have hnotover : ¬ (r.pos + 1 > r.buffer.length) := by omega
    have hni : ¬ (i = 4 ∧ x &&& 0xf0 ≠ 0) := by
      rintro ⟨h4, _⟩
      omega
    have hrec := ih (i + 1) (acc ||| (((x &&& 0x7f) <<< (7 * i)) % 2 ^ 32)) f b
      ⟨r.buffer, r.pos + 1⟩ rest (by omega) hdrop1
      (fun z hz => hcont z (by simp [hz]))
      (by omega) hb
    simp only [Reader.readVarint32Go, hgetD, if_neg hnotover, if_neg hni, if_neg hxc]
    rw [hrec]
    have hposeq : r.pos + 1 + xs'.length + 1 = r.pos + (x :: xs').length + 1 := by
      simp only [List.length_cons]
      omega
    rw [hposeq]

/-- Overflow run of the 64-bit varint read loop: nine continuation bytes then a
10th byte with the continuation bit set or data above 1. -/
theorem readVarint64Go_err (xs : List Nat) :
    ∀ (i acc fuel b : Nat) (r : Reader) (rest : List Nat),
      i + fuel = 10 →
      r.buffer.drop r.pos = xs ++ b :: rest →
      (∀ x ∈ xs, x &&& 0x80 ≠ 0) →
      i + xs.length = 9 →
      (0x80 ≤ b ∨ 1 < b) →
      Reader.readVarint64Go fuel i acc r =
        (.error .varintOverflow, ⟨r.buffer, r.pos + xs.length + 1⟩) := by
  induction xs with
  | nil =>
    intro i acc fuel b r rest hfuel hdrop hcont hi hb
    obtain ⟨f, rfl⟩ : ∃ f, fuel = f + 1 := ⟨fuel - 1, by omega⟩
    rw [List.nil_append] at hdrop
    obtain ⟨hp, hgetD, _⟩ := drop_cons_parts hdrop
    have hnotover : ¬ (r.pos + 1 > r.buffer.length) := by omega
    have h9 : i = 9 := by simpa using hi
    rcases (by omega : 0x80 ≤ b ∨ (b < 0x80 ∧ 1 < b)) with hge | ⟨hlt, hgt⟩
    · simp only [Reader.readVarint64Go, hgetD, if_neg hnotover,
        if_pos (And.intro h9 hge)]
      rfl
    · have hni1 : ¬ (i = 9 ∧ 0x80 ≤ b) := by
        rintro ⟨_, hge⟩
        omega
      simp only [Reader.readVarint64Go, hgetD, if_neg hnotover, if_neg hni1,
        if_pos (And.intro h9 hgt)]
      rfl
  | cons x xs' ih =>
    intro i acc fuel b r rest hfuel hdrop hcont hi hb
    obtain ⟨f, rfl⟩ : ∃ f, fuel = f + 1 := ⟨fuel - 1, by omega⟩
    rw [List.cons_append] at hdrop
    obtain ⟨hp, hgetD, hdrop1⟩ := drop_cons_parts hdrop
    have hxc : x &&& 0x80 ≠ 0 := hcont x (by simp)
    have hlen : i + (xs'.length + 1) = 9 := by simpa using hi
    have hnotover : ¬ (r.pos + 1 > r.buffer.length) := by omega
    have hni1 : ¬ (i = 9 ∧ 0x80 ≤ x) := by
      rintro ⟨h9, _⟩
      omega
    have hni2 : ¬ (i = 9 ∧ 1 < x) := by
      rintro ⟨h9, _⟩
      omega
    have hrec := ih (i + 1) (acc ||| (((x &&& 0x7f) <<< (7 * i)) % 2 ^ 64)) f b
      ⟨r.buffer, r.pos + 1⟩ rest (by omega) hdrop1
      (fun z hz => hcont z (by simp [hz]))
      (by omega) hb
    simp only [Reader.readVarint64Go, hgetD, if_neg hnotover, if_neg hni1, if_neg hni2,
      if_neg hxc]
    rw [hrec]
    have hposeq : r.pos + 1 + xs'.length + 1 = r.pos + (x :: xs').length + 1 := by
      simp only [List.length_cons]
      omega
    rw [hposeq]

/-- Reading back a 32-bit varint the writer produced, with arbitrary trailing
bytes. -/
theorem read_varint_of_write (v : Nat) (hv : v < 2 ^ 32) (rest : List Nat) :
    Reader.read_varint ⟨Writer.write_varint v ++ rest, 0⟩ =
      (.ok v, ⟨Writer.write_varint v ++ rest, (Writer.write_varint v).length⟩) := by
  obtain ⟨xs, y, heq, hcont, hy, hlen, hnib, hval⟩ := write_varint_spec v hv
  have hbuf : Writer.write_varint v ++ rest = xs ++ y :: rest := by
    rw [heq, List.append_assoc]
    rfl
  have hrun := readVarint32Go_ok xs 0 0 10 y ⟨xs ++ y :: rest, 0⟩ rest
    (by omega) (by simp) hcont hy (by omega) (fun h4 => hnib (by omega)) (by norm_num)
  rw [Reader.read_varint, hbuf, hrun, hval]
  have h1 : 0 + 2 ^ (7 * 0) * v = v := by norm_num
  have h2 : (0 : Nat) + xs.length + 1 = (Writer.write_varint v).length := by
    rw [heq]
    simp
  rw [h1, h2]

/-- Reading back a 64-bit varint the writer produced, with arbitrary trailing
bytes. -/
theorem read_varint64_of_write (v : Nat) (hv : v < 2 ^ 64) (rest : List Nat) :
    Reader.read_varint64 ⟨Writer.write_varint64 v ++ rest, 0⟩ =
      (.ok v, ⟨Writer.write_varint64 v ++ rest, (Writer.write_varint64 v).length⟩) := by
  obtain ⟨xs, y, heq, hcont, hy, hlen, hnib, hval⟩ := write_varint64_spec v hv
  have hbuf : Writer.write_varint64 v ++ rest = xs ++ y :: rest := by
    rw [heq, List.append_assoc]
    rfl
  have hrun := readVarint64Go_ok xs 0 0 10 y ⟨xs ++ y :: rest, 0⟩ rest
    (by omega) (by simp) hcont hy (by omega) (fun h9 => hnib (by omega)) (by norm_num)
  rw [Reader.read_varint64, hbuf, hrun, hval]
  have h1 : 0 + 2 ^ (7 * 0) * v = v := by norm_num
  have h2 : (0 : Nat) + xs.length + 1 = (Writer.write_varint64 v).length := by
    rw [heq]
    simp
  rw [h1, h2]

/-- The 64-bit ZigZag encoding of an in-range value fits in 64 bits. -/
theorem zigzag_encode_64_lt (n : Int) (h1 : -(2 ^ 63) ≤ n) (h2 : n < 2 ^ 63) :
    zigzag_encode_64 n < 2 ^ 64 := by
  by_cases hn : 0 ≤ n
  · have hm : n = ((n.toNat : Nat) : Int) := by omega
    have hlt : n.toNat < 2 ^ 63 := by omega
    rw [hm, zigzag_encode_64_nonneg n.toNat hlt]
    omega
  · have hm : n = -(((-n).toNat : Nat) : Int) := by omega
    have hb1 : 1 ≤ (-n).toNat := by omega
    have hb2 : (-n).toNat ≤ 2 ^ 63 := by omega
    rw [hm, zigzag_encode_64_neg (-n).toNat hb1 hb2]
    omega

/-- C4: for every unsigned 32-bit value, reading a varint from the bytes
written by `write_varint` returns that value (and consumes exactly those
bytes), likewise for 64-bit values with `write_varint64`/`read_varint64`, and
the encodings of 0, 1, 127, 128, 300, 16384 are the listed byte sequences. -/
theorem claim4_varint_roundtrip :
    (∀ v : Nat, v < 2 ^ 32 →
      Reader.read_varint ⟨Writer.write_varint v, 0⟩ =
        (.ok v, ⟨Writer.write_varint v, (Writer.write_varint v).length⟩)) ∧
    (∀ v : Nat, v < 2 ^ 64 →
      Reader.read_varint64 ⟨Writer.write_varint64 v, 0⟩ =
        (.ok v, ⟨Writer.write_varint64 v, (Writer.write_varint64 v).length⟩)) ∧
    Writer.write_varint 0 = [0x00] ∧ Writer.write_varint 1 = [0x01] ∧
    Writer.write_varint 127 = [0x7f] ∧ Writer.write_varint 128 = [0x80, 0x01] ∧
    Writer.write_varint 300 = [0xac, 0x02] ∧
    Writer.write_varint 16384 = [0x80, 0x80, 0x01] := by
  refine ⟨?_, ?_, by decide, by decide, by decide, by decide, by decide, by decide⟩
  · intro v hv
    have h := read_varint_of_write v hv []
    simpa using h
  · intro v hv
    have h := read_varint64_of_write v hv []
    simpa using h

/-- Witness for C4 at v = 300 (32-bit) and v = 2^63 (64-bit). -/
theorem claim4_varint_roundtrip_witness :
    (300 < 2 ^ 32 ∧
      Reader.read_varint ⟨Writer.write_varint 300, 0⟩ =
        (.ok 300, ⟨Writer.write_varint 300, (Writer.write_varint 300).length⟩)) ∧
    (2 ^ 63 < 2 ^ 64 ∧
      Reader.read_varint64 ⟨Writer.write_varint64 (2 ^ 63), 0⟩ =
        (.ok (2 ^ 63),
          ⟨Writer.write_varint64 (2 ^ 63), (Writer.write_varint64 (2 ^ 63)).length⟩)) :=
  ⟨⟨by norm_num, claim4_varint_roundtrip.1 300 (by norm_num)⟩,
   ⟨by norm_num, claim4_varint_roundtrip.2.1 (2 ^ 63) (by norm_num)⟩⟩

/-- C5: `read_varint` overflows on four continuation bytes followed by a byte
with a nonzero upper nibble (covering all inputs needing more than five
bytes), and otherwise returns the recomposed 32-bit value; `read_varint64`
overflows whenever nine continuation bytes are followed by a 10th byte with
its continuation bit set or data greater than 1. -/
theorem claim5_varint_limits :
    (∀ b0 b1 b2 b3 b4 : Nat, ∀ rest : List Nat,
      b0 &&& 0x80 ≠ 0 → b1 &&& 0x80 ≠ 0 → b2 &&& 0x80 ≠ 0 → b3 &&& 0x80 ≠ 0 →
      b4 &&& 0xf0 ≠ 0 →
      Reader.read_varint ⟨[b0, b1, b2, b3, b4] ++ rest, 0⟩ =
        (.error .varintOverflow, ⟨[b0, b1, b2, b3, b4] ++ rest, 5⟩)) ∧
    (∀ xs : List Nat, ∀ y : Nat, ∀ rest : List Nat,
      (∀ x ∈ xs, x &&& 0x80 ≠ 0) → y &&& 0x80 = 0 → xs.length ≤ 4 →
      (xs.length = 4 → y &&& 0xf0 = 0) →
      Reader.read_varint ⟨xs ++ y :: rest, 0⟩ =
        (.ok (lebVal (xs ++ [y])), ⟨xs ++ y :: rest, xs.length + 1⟩)) ∧
    (∀ xs : List Nat, ∀ b : Nat, ∀ rest : List Nat,
      (∀ x ∈ xs, x &&& 0x80 ≠ 0) → xs.length = 9 → (0x80 ≤ b ∨ 1 < b) →
      Reader.read_varint64 ⟨xs ++ b :: rest, 0⟩ =
        (.error .varintOverflow, ⟨xs ++ b :: rest, 10⟩)) := by
  refine ⟨?_, ?_, ?_⟩
  · intro b0 b1 b2 b3 b4 rest h0 h1 h2 h3 h4
    have hrun := readVarint32Go_err [b0, b1, b2, b3] 0 0 10 b4
      ⟨[b0, b1, b2, b3, b4] ++ rest, 0⟩ rest (by omega) (by simp)
      (by
        intro x hx
        simp only [List.mem_cons, List.not_mem_nil, or_false] at hx
        rcases hx with rfl | rfl | rfl | rfl <;> assumption)
      (by simp) h4
    rw [Reader.read_varint, hrun]
    simp
  · intro xs y rest hcont hy hlen hnib
    have hrun := readVarint32Go_ok xs 0 0 10 y ⟨xs ++ y :: rest, 0⟩ rest
      (by omega) (by simp) hcont hy (by omega) (fun h4 => hnib (by omega)) (by norm_num)
    rw [Reader.read_varint, hrun]
    have h1 : 0 + 2 ^ (7 * 0) * lebVal (xs ++ [y]) = lebVal (xs ++ [y]) := by norm_num
    rw [h1]
    simp
  · intro xs b rest hcont hlen hb
    have hrun := readVarint64Go_err xs 0 0 10 b ⟨xs ++ b :: rest, 0⟩ rest
      (by omega) (by simp) hcont (by omega) hb
    rw [Reader.read_varint64, hrun, hlen]

/-- Witness for C5: overflow on [0x80 ×4, 0xff], success on [0x05], 64-bit
overflow on nine 0x80 bytes then 0xff. -/
theorem claim5_varint_limits_witness :
    Reader.read_varint ⟨[0x80, 0x80, 0x80, 0x80, 0xff], 0⟩ =
      (.error .varintOverflow, ⟨[0x80, 0x80, 0x80, 0x80, 0xff], 5⟩) ∧
    Reader.read_varint ⟨[5], 0⟩ = (.ok (lebVal [5]), ⟨[5], 1⟩) ∧
    Reader.read_varint64
        ⟨[0x80, 0x80, 0x80, 0x80, 0x80, 0x80, 0x80, 0x80, 0x80, 0xff], 0⟩ =
      (.error .varintOverflow,
        ⟨[0x80, 0x80, 0x80, 0x80, 0x80, 0x80, 0x80, 0x80, 0x80, 0xff], 10⟩) := by
  refine ⟨?_, ?_, ?_⟩
  · have h := claim5_varint_limits.1 0x80 0x80 0x80 0x80 0xff []
      (by decide) (by decide) (by decide) (by decide) (by decide)
    simpa using h
  · have h := claim5_varint_limits.2.1 [] 5 [] (by decide) (by decide)
      (by decide) (by decide)
    simpa using h
  · have h := claim5_varint_limits.2.2
      [0x80, 0x80, 0x80, 0x80, 0x80, 0x80, 0x80, 0x80, 0x80] 0xff []
      (by decide) (by decide) (by decide)
    simpa using h

/-- C7: for each wire type, `skip_field` on a payload produced by the
corresponding writer operation succeeds and advances exactly to the end of
that payload (a varint for Varint/SVarint, 8 bytes for Fixed64, a length
prefix plus that many bytes for Bytes, 4 bytes for Fixed32), leaving any
following bytes to be decoded. -/
theorem claim7_skip_field :
    (∀ v : Nat, ∀ rest : List Nat, v < 2 ^ 64 →
      Reader.skip_field ⟨Writer.write_varint64 v ++ rest, 0⟩ .varint =
        (.ok (), ⟨Writer.write_varint64 v ++ rest, (Writer.write_varint64 v).length⟩)) ∧
    (∀ n : Int, ∀ rest : List Nat, -(2 ^ 63) ≤ n → n < 2 ^ 63 →
      Reader.skip_field ⟨Writer.write_svarint64 n ++ rest, 0⟩ .svarint =
        (.ok (), ⟨Writer.write_svarint64 n ++ rest, (Writer.write_svarint64 n).length⟩)) ∧
    (∀ v : Nat, ∀ rest : List Nat,
      Reader.skip_field ⟨Writer.write_fixed64 v ++ rest, 0⟩ .fixed64 =
        (.ok (), ⟨Writer.write_fixed64 v ++ rest, (Writer.write_fixed64 v).length⟩)) ∧
    (∀ data rest : List Nat, data.length < 2 ^ 32 →
      Reader.skip_field ⟨Writer.write_length_prefixed_bytes data ++ rest, 0⟩ .bytes =
        (.ok (), ⟨Writer.write_length_prefixed_bytes data ++ rest,
          (Writer.write_length_prefixed_bytes data).length⟩)) ∧
    (∀ v : Nat, ∀ rest : List Nat,
      Reader.skip_field ⟨Writer.write_fixed32 v ++ rest, 0⟩ .fixed32 =
        (.ok (), ⟨Writer.write_fixed32 v ++ rest, (Writer.write_fixed32 v).length⟩)) := by
  refine ⟨?_, ?_, ?_, ?_, ?_⟩
  · intro v rest hv
    have hread := read_varint64_of_write v hv rest
    simp only [Reader.skip_field, hread]
  · intro n rest h1 h2
    have hlt := zigzag_encode_64_lt n h1 h2
    have hread := read_varint64_of_write (zigzag_encode_64 n) hlt rest
    simp only [Writer.write_svarint64] at *
    simp only [Reader.skip_field, hread]
  · intro v rest
    simp only [Reader.skip_field, Reader.check_available]
    rw [if_neg (by simp [Writer.write_fixed64])]
    simp [Writer.write_fixed64]
  · intro data rest hlen
    have hmod : data.length % 2 ^ 32 = data.length := Nat.mod_eq_of_lt hlen
    have hbuf : Writer.write_length_prefixed_bytes data ++ rest =
        Writer.write_varint (data.length % 2 ^ 32) ++ (data ++ rest) := by
      simp [Writer.write_length_prefixed_bytes, List.append_assoc]
    have hread := read_varint_of_write (data.length % 2 ^ 32)
      (by omega : data.length % 2 ^ 32 < 2 ^ 32) (data ++ rest)
    rw [← hbuf] at hread
    simp only [Reader.skip_field, hread, Reader.check_available]
    rw [if_neg (by
      simp [Writer.write_length_prefixed_bytes]
      omega)]
    have hpos : (Writer.write_varint (data.length % 2 ^ 32)).length +
        (data.length % 2 ^ 32) = (Writer.write_length_prefixed_bytes data).length := by
      simp [Writer.write_length_prefixed_bytes]
      omega
    rw [hpos]
  · intro v rest
    simp only [Reader.skip_field, Reader.check_available]
    rw [if_neg (by simp [Writer.write_fixed32])]
    simp [Writer.write_fixed32]

/-- Witness for C7 at concrete payloads for all five wire types. -/
theorem claim7_skip_field_witness :
    (300 < 2 ^ 64 ∧
      Reader.skip_field ⟨Writer.write_varint64 300 ++ [7], 0⟩ .varint =
        (.ok (), ⟨Writer.write_varint64 300 ++ [7], (Writer.write_varint64 300).length⟩)) ∧
    (-(2 ^ 63) ≤ (-5 : Int) ∧ (-5 : Int) < 2 ^ 63 ∧
      Reader.skip_field ⟨Writer.write_svarint64 (-5) ++ [7], 0⟩ .svarint =
        (.ok (),
          ⟨Writer.write_svarint64 (-5) ++ [7], (Writer.write_svarint64 (-5)).length⟩)) ∧
    (Reader.skip_field ⟨Writer.write_fixed64 99 ++ [7], 0⟩ .fixed64 =
      (.ok (), ⟨Writer.write_fixed64 99 ++ [7], (Writer.write_fixed64 99).length⟩)) ∧
    (([3, 4, 5] : List Nat).length < 2 ^ 32 ∧
      Reader.skip_field ⟨Writer.write_length_prefixed_bytes [3, 4, 5] ++ [7], 0⟩ .bytes =
        (.ok (), ⟨Writer.write_length_prefixed_bytes [3, 4, 5] ++ [7],
          (Writer.write_length_prefixed_bytes [3, 4, 5]).length⟩)) ∧
    (Reader.skip_field ⟨Writer.write_fixed32 99 ++ [7], 0⟩ .fixed32 =
      (.ok (), ⟨Writer.write_fixed32 99 ++ [7], (Writer.write_fixed32 99).length⟩)) :=
  ⟨⟨by norm_num, claim7_skip_field.1 300 [7] (by norm_num)⟩,
   ⟨by norm_num, by norm_num, claim7_skip_field.2.1 (-5) [7] (by norm_num) (by norm_num)⟩,
   claim7_skip_field.2.2.1 99 [7],
   ⟨by norm_num, claim7_skip_field.2.2.2.1 [3, 4, 5] [7] (by norm_num)⟩,
   claim7_skip_field.2.2.2.2 99 [7]⟩

/-- The extended-tag varint loop returns `None` when every remaining byte has
its continuation bit set and the shift cap is not reached (the truncation
path). -/
theorem decodeExtGo_truncated (rest : List Nat) :
    ∀ i shift fn, (∀ x ∈ rest, x &&& 0x80 ≠ 0) → shift + 7 * rest.length < 35 →
      decodeExtGo rest i shift fn = none := by
  induction rest with
  | nil =>
    intro i shift fn _ _
    rfl
  | cons b t ih =>
    intro i shift fn hcont hsh
    have hb : b &&& 0x80 ≠ 0 := hcont b (by simp)
    have hlen : shift + 7 * (t.length + 1) < 35 := by simpa using hsh
    simp only [decodeExtGo]
    rw [if_neg hb, if_neg (by omega : ¬ (35 ≤ shift + 7))]
    exact ih (i + 1) (shift + 7) _ (fun z hz => hcont z (by simp [hz])) (by omega)

/-- Boolean test for the buffer-underflow error kind on a tag-read result. -/
def isBufferUnderflow : Except Error FieldTag → Bool
  | .error (.bufferUnderflow _ _) => true
  | _ => false

/-- C2 (amended): a nonzero first byte whose wire-type bits map to no valid
WireType makes `read_tag` fail with `InvalidWireType` carrying that byte; a
nonzero first byte with the extension bit set whose trailing varint field
number is truncated also makes `read_tag` fail with `InvalidWireType` carrying
the first byte (not with a buffer underflow), because `decode_compact_tag`
collapses both failures into `None`. -/
theorem claim2_read_tag_errors :
    (∀ b : Nat, ∀ rest : List Nat, b ≠ 0 →
      WireType.fromNat ((b &&& TAG_WIRE_TYPE_MASK) >>> TAG_WIRE_TYPE_SHIFT) = none →
      Reader.read_tag ⟨b :: rest, 0⟩ = (.error (.invalidWireType b), ⟨b :: rest, 0⟩)) ∧
    (∀ b : Nat, ∀ rest : List Nat, b ≠ 0 → b &&& TAG_EXTENDED_BIT = 1 →
      (∀ x ∈ rest, x &&& 0x80 ≠ 0) → rest.length ≤ 4 →
      Reader.read_tag ⟨b :: rest, 0⟩ = (.error (.invalidWireType b), ⟨b :: rest, 0⟩)) := by
  constructor
  · intro b rest hb0 hwt
    simp only [Reader.read_tag, List.drop_zero, decode_compact_tag,
      if_neg (show ¬ (b = END_MARKER) from hb0), hwt]
  · intro b rest hb0 hext hcont hlen
    have hgo : decodeExtGo rest 1 0 0 = none :=
      decodeExtGo_truncated rest 1 0 0 hcont (by omega)
    simp only [Reader.read_tag, List.drop_zero, decode_compact_tag,
      if_neg (show ¬ (b = END_MARKER) from hb0)]
    cases hwt : WireType.fromNat ((b &&& TAG_WIRE_TYPE_MASK) >>> TAG_WIRE_TYPE_SHIFT) with
    | none => rfl
    | some w =>
      simp only [if_neg (show ¬ (b &&& TAG_EXTENDED_BIT = 0) from by omega), hgo]

/-- Witness for C2: wire-type bits 5 on byte 0x0a, and a lone extended marker
byte 0x01 with the field-number varint missing. -/
theorem claim2_read_tag_errors_witness :
    ((0x0a : Nat) ≠ 0 ∧
      WireType.fromNat (((0x0a : Nat) &&& TAG_WIRE_TYPE_MASK) >>> TAG_WIRE_TYPE_SHIFT) =
        none ∧
      Reader.read_tag ⟨[0x0a], 0⟩ = (.error (.invalidWireType 0x0a), ⟨[0x0a], 0⟩)) ∧
    ((0x01 : Nat) ≠ 0 ∧ (0x01 : Nat) &&& TAG_EXTENDED_BIT = 1 ∧
      Reader.read_tag ⟨[0x01, 0x80], 0⟩ =
        (.error (.invalidWireType 0x01), ⟨[0x01, 0x80], 0⟩)) :=
  ⟨⟨by decide, by decide,
    claim2_read_tag_errors.1 0x0a [] (by decide) (by decide)⟩,
   ⟨by decide, by decide,
    claim2_read_tag_errors.2 0x01 [0x80] (by decide) (by decide)
      (by decide) (by decide)⟩⟩

/-- Counterexample to C2 as stated: on the truncated extended tag `[0x01]`,
`read_tag` fails with `InvalidWireType 1`, not with a buffer-underflow
error. -/
theorem claim2_counterexample :
    Reader.read_tag ⟨[1], 0⟩ = (.error (.invalidWireType 1), ⟨[1], 0⟩) ∧
    isBufferUnderflow (Reader.read_tag ⟨[1], 0⟩).1 = false :=
  ⟨rfl, rfl⟩

/-- The extended-tag varint loop never reports more bytes than it saw. -/
theorem decodeExtGo_bytes (l : List Nat) :
    ∀ i shift fn p, decodeExtGo l i shift fn = some p → p.2 ≤ i + l.length := by
  induction l with
  | nil =>
    intro i shift fn p h
    exact absurd h (by simp [decodeExtGo])
  | cons b t ih =>
    intro i shift fn p h
    simp only [decodeExtGo] at h
    by_cases hb : b &&& 0x80 = 0
    · rw [if_pos hb] at h
      injection h with h'
      rw [← h']
      simp
    · rw [if_neg hb] at h
      by_cases hs : 35 ≤ shift + 7
      · rw [if_pos hs] at h
        exact absurd h (by simp)
      · rw [if_neg hs] at h
        have hle := ih (i + 1) (shift + 7) _ p h
        simp only [List.length_cons]
        omega

/-- A decoded compact tag consumes at most the bytes that were available. -/
theorem decode_compact_tag_bytes {data : List Nat} {res : CompactTagResult}
    (h : decode_compact_tag data = some res) : res.bytes_read ≤ data.length := by
  cases data with
  | nil => exact absurd h (by simp [decode_compact_tag])
  | cons tag rest =>
    simp only [decode_compact_tag] at h
    by_cases htag : tag = END_MARKER
    · rw [if_pos htag] at h
      injection h with h'
      rw [← h']
      simp
    · rw [if_neg htag] at h
      cases hwt : WireType.fromNat ((tag &&& TAG_WIRE_TYPE_MASK) >>> TAG_WIRE_TYPE_SHIFT) with
      | none =>
        rw [hwt] at h
        exact absurd h (by simp)
      | some w =>
        simp only [hwt] at h
        by_cases hext : tag &&& TAG_EXTENDED_BIT = 0
        · rw [if_pos hext] at h
          injection h with h'
          rw [← h']
          simp
        · rw [if_neg hext] at h
          cases hgo : decodeExtGo rest 1 0 0 with
          | none =>
            rw [hgo] at h
            exact absurd h (by simp)
          | some p =>
            rw [hgo] at h
            obtain ⟨fn, i⟩ := p
            injection h with h'
            have hle := decodeExtGo_bytes rest 1 0 0 (fn, i) hgo
            rw [← h']
            simp only [List.length_cons]
            simp at hle
            omega

/-- The 32-bit varint loop keeps the buffer and never moves past its end. -/
theorem readVarint32Go_state :
    ∀ fuel i acc (r : Reader), r.pos ≤ r.buffer.length →
      (Reader.readVarint32Go fuel i acc r).2.buffer = r.buffer ∧
      (Reader.readVarint32Go fuel i acc r).2.pos ≤ r.buffer.length := by
  intro fuel
  induction fuel with
  | zero =>
    intro i acc r h
    exact ⟨rfl, h⟩
  | succ fuel ih =>
    intro i acc r h
    by_cases hov : r.pos + 1 > r.buffer.length
    · simp only [Reader.readVarint32Go, if_pos hov]
      exact ⟨trivial, h⟩
    · simp only [Reader.readVarint32Go, if_neg hov]
      by_cases h4 : i = 4 ∧ (r.buffer.getD r.pos 0) &&& 0xf0 ≠ 0
      · rw [if_pos h4]
        exact ⟨rfl, show r.pos + 1 ≤ r.buffer.length from by omega⟩
      · rw [if_neg h4]
        by_cases hcont : (r.buffer.getD r.pos 0) &&& 0x80 = 0
        · rw [if_pos hcont]
          exact ⟨rfl, show r.pos + 1 ≤ r.buffer.length from by omega⟩
        · rw [if_neg hcont]
          exact ih (i + 1) _ ⟨r.buffer, r.pos + 1⟩
            (show r.pos + 1 ≤ r.buffer.length from by omega)

/-- The 64-bit varint loop keeps the buffer and never moves past its end. -/
theorem readVarint64Go_state :
    ∀ fuel i acc (r : Reader), r.pos ≤ r.buffer.length →
      (Reader.readVarint64Go fuel i acc r).2.buffer = r.buffer ∧
      (Reader.readVarint64Go fuel i acc r).2.pos ≤ r.buffer.length := by
  intro fuel
  induction fuel with
  | zero =>
    intro i acc r h
    exact ⟨rfl, h⟩
  | succ fuel ih =>
    intro i acc r h
    by_cases hov : r.pos + 1 > r.buffer.length
    · simp only [Reader.readVarint64Go, if_pos hov]
      exact ⟨trivial, h⟩
    · simp only [Reader.readVarint64Go, if_neg hov]
      by_cases h91 : i = 9 ∧ 0x80 ≤ r.buffer.getD r.pos 0
      · rw [if_pos h91]
        exact ⟨rfl, show r.pos + 1 ≤ r.buffer.length from by omega⟩
      · rw [if_neg h91]
        by_cases h92 : i = 9 ∧ 1 < r.buffer.getD r.pos 0
        · rw [if_pos h92]
          exact ⟨rfl, show r.pos + 1 ≤ r.buffer.length from by omega⟩
        · rw [if_neg h92]
          by_cases hcont : (r.buffer.getD r.pos 0) &&& 0x80 = 0
          · rw [if_pos hcont]
            exact ⟨rfl, show r.pos + 1 ≤ r.buffer.length from by omega⟩
          · rw [if_neg hcont]
            exact ih (i + 1) _ ⟨r.buffer, r.pos + 1⟩
              (show r.pos + 1 ≤ r.buffer.length from by omega)

/-- State facts for `read_varint`. -/
theorem read_varint_state (r : Reader) (h : r.pos ≤ r.buffer.length) :
    (r.read_varint).2.buffer = r.buffer ∧ (r.read_varint).2.pos ≤ r.buffer.length :=
  readVarint32Go_state 10 0 0 r h

/-- State facts for `read_varint64`. -/
theorem read_varint64_state (r : Reader) (h : r.pos ≤ r.buffer.length) :
    (r.read_varint64).2.buffer = r.buffer ∧ (r.read_varint64).2.pos ≤ r.buffer.length :=
  readVarint64Go_state 10 0 0 r h

/-- State facts for `read_bytes`. -/
theorem read_bytes_state (r : Reader) (n : Nat) (h : r.pos ≤ r.buffer.length) :
    (r.read_bytes n).2.buffer = r.buffer ∧ (r.read_bytes n).2.pos ≤ r.buffer.length := by
  by_cases hov : r.pos + n > r.buffer.length
  · simp only [Reader.read_bytes, Reader.check_available, if_pos hov]
    exact ⟨trivial, h⟩
  · simp only [Reader.read_bytes, Reader.check_available, if_neg hov]
    exact ⟨trivial, by omega⟩

/-- One Reader operation, for quantifying over the whole read interface. -/
inductive ReaderOp where
  | opByte
  | opBytes (n : Nat)
  | opVarint
  | opVarint64
  | opSvarint
  | opSvarint64
  | opTag
  | opBool
  | opFixed32
  | opFixed64
  | opFloat32
  | opFloat64
  | opString
  | opLengthPrefixedBytes
  | opSkip (w : WireType)
  | opSub (n : Nat)

/-- Reader state after running one operation (the returned value, or the error,
is dropped; the Rust methods mutate `self.pos` exactly as modelled here). -/
def runOp : ReaderOp → Reader → Reader
  | .opByte, r => (r.read_byte).2
  | .opBytes n, r => (r.read_bytes n).2
  | .opVarint, r => (r.read_varint).2
  | .opVarint64, r => (r.read_varint64).2
  | .opSvarint, r => (r.read_svarint).2
  | .opSvarint64, r => (r.read_svarint64).2
  | .opTag, r => (r.read_tag).2
  | .opBool, r => (r.read_bool).2
  | .opFixed32, r => (r.read_fixed32).2
  | .opFixed64, r => (r.read_fixed64).2
  | .opFloat32, r => (r.read_float32).2
  | .opFloat64, r => (r.read_float64).2
  | .opString, r => (r.read_string).2
  | .opLengthPrefixedBytes, r => (r.read_length_prefixed_bytes).2
  | .opSkip w, r => (r.skip_field w).2
  | .opSub n, r => (r.sub_reader n).2

/-- State facts for `read_byte`. -/
theorem read_byte_state (r : Reader) (h : r.pos ≤ r.buffer.length) :
    (r.read_byte).2.buffer = r.buffer ∧ (r.read_byte).2.pos ≤ r.buffer.length := by
  by_cases hov : r.pos + 1 > r.buffer.length
  · simp only [Reader.read_byte, Reader.check_available, if_pos hov]
    exact ⟨trivial, h⟩
  · simp only [Reader.read_byte, Reader.check_available, if_neg hov]
    exact ⟨trivial, by omega⟩

/-- C10: every Reader operation keeps the buffer unchanged and leaves the
position at most the buffer length, also when it returns a failure, so
`position()` never exceeds the buffer length and `remaining()` never
underflows. -/
theorem claim10_reader_position_invariant :
    ∀ (op : ReaderOp) (r : Reader), r.pos ≤ r.buffer.length →
      (runOp op r).buffer = r.buffer ∧ (runOp op r).pos ≤ r.buffer.length := by
  intro op r h
  cases op with
  | opByte => exact read_byte_state r h
  | opBytes n => exact read_bytes_state r n h
  | opVarint => exact read_varint_state r h
  | opVarint64 => exact read_varint64_state r h
  | opSvarint =>
    have hs := read_varint_state r h
    simp only [runOp, Reader.read_svarint]
    rcases hveq : r.read_varint with ⟨e, r1⟩
    rw [hveq] at hs
    cases e with
    | error err => exact hs
    | ok v => exact hs
  | opSvarint64 =>
    have hs := read_varint64_state r h
    simp only [runOp, Reader.read_svarint64]
    rcases hveq : r.read_varint64 with ⟨e, r1⟩
    rw [hveq] at hs
    cases e with
    | error err => exact hs
    | ok v => exact hs
  | opTag =>
    simp only [runOp, Reader.read_tag]
    split
    · exact ⟨rfl, h⟩
    · next b rest hdrop =>
      split
      · exact ⟨rfl, h⟩
      · next res hdec =>
        have hbytes := decode_compact_tag_bytes hdec
        have hlen2 : (b :: rest).length = r.buffer.length - r.pos := by
          rw [← hdrop]
          simp [List.length_drop]
        refine ⟨rfl, show r.pos + res.bytes_read ≤ r.buffer.length from ?_⟩
        simp only [List.length_cons] at hbytes hlen2
        omega
  | opBool =>
    have hs := read_byte_state r h
    simp only [runOp, Reader.read_bool]
    rcases hveq : r.read_byte with ⟨e, r1⟩
    rw [hveq] at hs
    cases e with
    | error err => exact hs
    | ok v => exact hs
  | opFixed32 =>
    have hs := read_bytes_state r 4 h
    simp only [runOp, Reader.read_fixed32]
    rcases hveq : r.read_bytes 4 with ⟨e, r1⟩
    rw [hveq] at hs
    cases e with
    | error err => exact hs
    | ok v => exact hs
  | opFixed64 =>
    have hs := read_bytes_state r 8 h
    simp only [runOp, Reader.read_fixed64]
    rcases hveq : r.read_bytes 8 with ⟨e, r1⟩
    rw [hveq] at hs
    cases e with
    | error err => exact hs
    | ok v => exact hs
  | opFloat32 =>
    have hs := read_bytes_state r 4 h
    simp only [runOp, Reader.read_float32]
    rcases hveq : r.read_bytes 4 with ⟨e, r1⟩
    rw [hveq] at hs
    cases e with
    | error err => exact hs
    | ok v => exact hs
  | opFloat64 =>
    have hs := read_bytes_state r 8 h
    simp only [runOp, Reader.read_float64]
    rcases hveq : r.read_bytes 8 with ⟨e, r1⟩
    rw [hveq] at hs
    cases e with
    | error err => exact hs
    | ok v => exact hs
  | opString =>
    simp only [runOp, Reader.read_string]
    split
    · next e r1 heq =>
      have hs := read_varint_state r h
      rw [heq] at hs
      exact hs
    · next length r1 heq =>
      have hs := read_varint_state r h
      rw [heq] at hs
      split
      · next e2 r2 heq2 =>
        have hs2 := read_bytes_state r1 length (by rw [hs.1]; exact hs.2)
        rw [heq2, hs.1] at hs2
        exact hs2
      · next bs r2 heq2 =>
        have hs2 := read_bytes_state r1 length (by rw [hs.1]; exact hs.2)
        rw [heq2, hs.1] at hs2
        by_cases hu : Reader.utf8Valid bs = true
        · rw [if_pos hu]
          exact hs2
        · rw [if_neg hu]
          exact hs2
  | opLengthPrefixedBytes =>
    simp only [runOp, Reader.read_length_prefixed_bytes]
    split
    · next e r1 heq =>
      have hs := read_varint_state r h
      rw [heq] at hs
      exact hs
    · next length r1 heq =>
      have hs := read_varint_state r h
      rw [heq] at hs
      have hs2 := read_bytes_state r1 length (by rw [hs.1]; exact hs.2)
      rw [hs.1] at hs2
      exact hs2
  | opSkip w =>
    cases w with
    | varint =>
      have hs := read_varint64_state r h
      simp only [runOp, Reader.skip_field]
      rcases hveq : r.read_varint64 with ⟨e, r1⟩
      rw [hveq] at hs
      cases e with
      | error err => exact hs
      | ok v => exact hs
    | svarint =>
      have hs := read_varint64_state r h
      simp only [runOp, Reader.skip_field]
      rcases hveq : r.read_varint64 with ⟨e, r1⟩
      rw [hveq] at hs
      cases e with
      | error err => exact hs
      | ok v => exact hs
    | fixed64 =>
      by_cases hov : r.pos + 8 > r.buffer.length
      · simp only [runOp, Reader.skip_field, Reader.check_available, if_pos hov]
        exact ⟨trivial, h⟩
      · simp only [runOp, Reader.skip_field, Reader.check_available, if_neg hov]
        exact ⟨trivial, by omega⟩
    | fixed32 =>
      by_cases hov : r.pos + 4 > r.buffer.length
      · simp only [runOp, Reader.skip_field, Reader.check_available, if_pos hov]
        exact ⟨trivial, h⟩
      · simp only [runOp, Reader.skip_field, Reader.check_available, if_neg hov]
        exact ⟨trivial, by omega⟩
    | bytes =>
      simp only [runOp, Reader.skip_field]
      split
      · next e r1 heq =>
        have hs := read_varint_state r h
        rw [heq] at hs
        exact hs
      · next length r1 heq =>
        have hs := read_varint_state r h
        rw [heq] at hs
        by_cases hov : r1.pos + length > r1.buffer.length
        · simp only [Reader.check_available, if_pos hov]
          exact hs
        · simp only [Reader.check_available, if_neg hov]
          refine ⟨hs.1, ?_⟩
          have hb := hs.1
          rw [hb] at hov
          exact show r1.pos + length ≤ r.buffer.length from by omega
  | opSub n =>
    by_cases hov : r.pos + n > r.buffer.length
    · simp only [runOp, Reader.sub_reader, Reader.check_available, if_pos hov]
      exact ⟨trivial, h⟩
    · simp only [runOp, Reader.sub_reader, Reader.check_available, if_neg hov]
      exact ⟨trivial, by omega⟩

/-- Witness for C10 on a two-byte buffer with a varint read. -/
theorem claim10_reader_position_invariant_witness :
    (⟨[1, 2], 0⟩ : Reader).pos ≤ (⟨[1, 2], 0⟩ : Reader).buffer.length ∧
    ((runOp .opVarint ⟨[1, 2], 0⟩).buffer = (⟨[1, 2], 0⟩ : Reader).buffer ∧
      (runOp .opVarint ⟨[1, 2], 0⟩).pos ≤ (⟨[1, 2], 0⟩ : Reader).buffer.length) :=
  ⟨by decide, claim10_reader_position_invariant .opVarint ⟨[1, 2], 0⟩ (by decide)⟩

/-- Past its first byte, the stream varint loop never reports a clean EOF. -/
theorem tryReadVarintGo_no_none :
    ∀ fuel i acc (s : List Nat) (out : List Nat), 1 ≤ i →
      tryReadVarintGo fuel i acc s ≠ .ok (none, out) := by
  intro fuel
  induction fuel with
  | zero =>
    intro i acc s out hi h
    exact absurd h (by simp [tryReadVarintGo])
  | succ fuel ih =>
    intro i acc s out hi h
    cases s with
    | nil =>
      simp only [tryReadVarintGo] at h
      rw [if_neg (by omega)] at h
      exact absurd h (by simp)
    | cons b t =>
      simp only [tryReadVarintGo] at h
      by_cases hb : b &&& 0x80 = 0
      · rw [if_pos hb] at h
        simp at h
      · rw [if_neg hb] at h
        exact ih (i + 1) _ t out (by omega) h

/-- A nonempty stream never yields the clean-EOF result from
`try_read_varint`. -/
theorem try_read_varint_no_none (s : List Nat) (hs : s ≠ []) (out : List Nat) :
    try_read_varint s ≠ .ok (none, out) := by
  cases s with
  | nil => exact absurd rfl hs
  | cons b t =>
    intro h
    simp only [try_read_varint, tryReadVarintGo] at h
    by_cases hb : b &&& 0x80 = 0
    · rw [if_pos hb] at h
      simp at h
    · rw [if_neg hb] at h
      exact tryReadVarintGo_no_none 9 1 _ t out (by omega) h

/-- The stream varint loop hits the mid-varint EOF path on an all-continuation
stream that ends before the byte limit. -/
theorem tryReadVarintGo_eof :
    ∀ (s : List Nat), (∀ x ∈ s, x &&& 0x80 ≠ 0) →
      ∀ fuel i acc, i + fuel = 10 → 1 ≤ i + s.length → i + s.length ≤ 9 →
        tryReadVarintGo fuel i acc s = .error .unexpectedEof := by
  intro s
  induction s with
  | nil =>
    intro _ fuel i acc hfuel hi hlen
    obtain ⟨f, rfl⟩ : ∃ f, fuel = f + 1 := ⟨fuel - 1, by omega⟩
    simp only [List.length_nil] at hi
    simp only [tryReadVarintGo]
    rw [if_neg (by omega)]
  | cons b t ih =>
    intro hcont fuel i acc hfuel hi hlen
    obtain ⟨f, rfl⟩ : ∃ f, fuel = f + 1 := ⟨fuel - 1, by omega⟩
    have hb : b &&& 0x80 ≠ 0 := hcont b (by simp)
    simp only [tryReadVarintGo]
    rw [if_neg hb]
    exact ih (fun z hz => hcont z (by simp [hz])) f (i + 1) _ (by omega) (by omega)
      (by simp only [List.length_cons] at hlen; omega)

/-- Success run of the stream varint loop on writer-produced bytes. -/
theorem tryReadVarintGo_ok (xs : List Nat) :
    ∀ (i acc fuel y : Nat) (rest : List Nat),
      i + fuel = 10 →
      (∀ x ∈ xs, x &&& 0x80 ≠ 0) →
      y &&& 0x80 = 0 →
      i + xs.length ≤ 9 →
      (i + xs.length = 9 → y ≤ 1) →
      acc < 2 ^ (7 * i) →
      tryReadVarintGo fuel i acc (xs ++ y :: rest) =
        .ok (some (acc + 2 ^ (7 * i) * lebVal (xs ++ [y])), rest) := by
  induction xs with
  | nil =>
    intro i acc fuel y rest hfuel hcont hy hle hnib hacc
    obtain ⟨f, rfl⟩ : ∃ f, fuel = f + 1 := ⟨fuel - 1, by omega⟩
    have hc : y &&& 0x7f = y % 128 := and_127 y
    have hs : (y % 128) <<< (7 * i) = (y % 128) * 2 ^ (7 * i) := Nat.shiftLeft_eq _ _
    have hbound : (y % 128) * 2 ^ (7 * i) < 2 ^ 64 :=
      group_bound64 (by omega) (fun h9 => hnib (by simpa using h9))
    simp only [List.nil_append, tryReadVarintGo, hc, hs,
      Nat.mod_eq_of_lt hbound, lor_eq_add_mul_pow hacc, if_pos hy]
    have hvaleq : acc + y % 128 * 2 ^ (7 * i) =
        acc + 2 ^ (7 * i) * lebVal [y] := by
      simp [lebVal]
      ring
    rw [hvaleq]
  | cons x xs' ih =>
    intro i acc fuel y rest hfuel hcont hy hle hnib hacc
    obtain ⟨f, rfl⟩ : ∃ f, fuel = f + 1 := ⟨fuel - 1, by omega⟩
    have hxc : x &&& 0x80 ≠ 0 := hcont x (by simp)
    have hlen : i + (xs'.length + 1) ≤ 9 := by simpa using hle
    have hc : x &&& 0x7f = x % 128 := and_127 x
    have hs : (x % 128) <<< (7 * i) = (x % 128) * 2 ^ (7 * i) := Nat.shiftLeft_eq _ _
    have hbound : (x % 128) * 2 ^ (7 * i) < 2 ^ 64 :=
      group_bound64 (by omega) (by omega)
    have hxm : x % 128 < 128 := Nat.mod_lt _ (by norm_num)
    have hacc2 : acc + (x % 128) * 2 ^ (7 * i) < 2 ^ (7 * (i + 1)) := by
      have hstep := pow7_succ i
      have hmb : (x % 128) * 2 ^ (7 * i) ≤ 127 * 2 ^ (7 * i) :=
        Nat.mul_le_mul_right _ (by omega)
      omega
    have hrec := ih (i + 1) (acc + (x % 128) * 2 ^ (7 * i)) f y rest (by omega)
      (fun z hz => hcont z (by simp [hz]))
      hy (by omega)
      (fun h9 => hnib (by simp only [List.length_cons]; omega))
      hacc2
    simp only [List.cons_append, tryReadVarintGo, hc, hs,
      Nat.mod_eq_of_lt hbound, lor_eq_add_mul_pow hacc, if_neg hxc]
    rw [hrec]
    have hvaleq : acc + x % 128 * 2 ^ (7 * i) + 2 ^ (7 * (i + 1)) * lebVal (xs' ++ [y]) =
        acc + 2 ^ (7 * i) * lebVal (x :: (xs' ++ [y])) := by
      rw [pow7_succ i]
      simp [lebVal, List.cons_append]
      ring
    rw [hvaleq]

/-- Reading back a stream varint from writer-produced bytes. -/
theorem try_read_varint_of_write (v : Nat) (hv : v < 2 ^ 64) (rest : List Nat) :
    try_read_varint (stream_write_varint v ++ rest) = .ok (some v, rest) := by
  obtain ⟨xs, y, heq, hcont, hy, hlen, hnib, hval⟩ := write_varint64_spec v hv
  have hw : stream_write_varint v = Writer.write_varint64 v := rfl
  have hbuf : stream_write_varint v ++ rest = xs ++ y :: rest := by
    rw [hw, heq, List.append_assoc]
    rfl
  rw [hbuf, try_read_varint,
    tryReadVarintGo_ok xs 0 0 10 y rest (by omega) hcont hy (by omega)
      (fun h9 => hnib (by omega)) (by norm_num), hval]
  norm_num

/-- C8: `try_read_message` returns the no-message result exactly when the
stream has no bytes at all before the length varint; a stream of only
continuation bytes that ends before a full varint fails with the
unexpected-end-of-file error; and a complete length prefix followed by fewer
payload bytes than announced fails with an I/O error of kind unexpected-EOF
from `read_exact`. -/
theorem claim8_try_read_message :
    (∀ maxSize : Nat, try_read_message maxSize [] = .ok (none, [])) ∧
    (∀ maxSize : Nat, ∀ s : List Nat, s ≠ [] → ∀ s' : List Nat,
      try_read_message maxSize s ≠ .ok (none, s')) ∧
    (∀ maxSize : Nat, ∀ s : List Nat, (∀ x ∈ s, x &&& 0x80 ≠ 0) → 1 ≤ s.length →
      s.length ≤ 9 → try_read_message maxSize s = .error .unexpectedEof) ∧
    (∀ maxSize L : Nat, ∀ data : List Nat, L < 2 ^ 64 → data.length < L →
      L ≤ maxSize →
      try_read_message maxSize (stream_write_varint L ++ data) =
        .error (.ioFailure .unexpectedEofKind)) := by
  refine ⟨?_, ?_, ?_, ?_⟩
  · intro maxSize
    rfl
  · intro maxSize s hs s' h
    simp only [try_read_message] at h
    split at h
    · simp at h
    · next s2 heq => exact try_read_varint_no_none s hs s2 heq
    · next L s2 heq =>
      by_cases hmax : maxSize < L
      · rw [if_pos hmax] at h
        simp at h
      · rw [if_neg hmax] at h
        simp only [read_exact] at h
        by_cases hre : s2.length < L
        · rw [if_pos hre] at h
          simp at h
        · rw [if_neg hre] at h
          simp at h
  · intro maxSize s hcont h1 h9
    have hgo : tryReadVarintGo 10 0 0 s = .error .unexpectedEof :=
      tryReadVarintGo_eof s hcont 10 0 0 (by omega) (by omega) (by omega)
    simp only [try_read_message, try_read_varint, hgo]
  · intro maxSize L data hL hdata hmax
    have hread := try_read_varint_of_write L hL data
    simp only [try_read_message, hread]
    rw [if_neg (by omega : ¬ (maxSize < L))]
    simp only [read_exact]
    rw [if_pos hdata]

/-- Witness for C8: the singleton continuation stream and a frame announcing
two bytes but delivering one. -/
theorem claim8_try_read_message_witness :
    ((∀ x ∈ ([0x80] : List Nat), x &&& 0x80 ≠ 0) ∧ 1 ≤ ([0x80] : List Nat).length ∧
      ([0x80] : List Nat).length ≤ 9 ∧
      try_read_message DEFAULT_MAX_MESSAGE_SIZE [0x80] = .error .unexpectedEof) ∧
    (2 < 2 ^ 64 ∧ ([9] : List Nat).length < 2 ∧ 2 ≤ DEFAULT_MAX_MESSAGE_SIZE ∧
      try_read_message DEFAULT_MAX_MESSAGE_SIZE (stream_write_varint 2 ++ [9]) =
        .error (.ioFailure .unexpectedEofKind)) :=
  ⟨⟨by decide, by decide, by decide,
    claim8_try_read_message.2.2.1 DEFAULT_MAX_MESSAGE_SIZE [0x80] (by decide)
      (by decide) (by decide)⟩,
   ⟨by norm_num, by decide, by simp [DEFAULT_MAX_MESSAGE_SIZE],
    claim8_try_read_message.2.2.2 DEFAULT_MAX_MESSAGE_SIZE 2 [9] (by norm_num)
      (by decide) (by simp [DEFAULT_MAX_MESSAGE_SIZE])⟩⟩

/-- Looking up the key just inserted. -/
theorem lookup_insert_self {K V : Type} [DecidableEq K] (l : List (K × V)) (k : K) (v : V) :
    mapLookup (mapInsert l k v) k = some v := by
  induction l with
  | nil => simp [mapInsert, mapLookup]
  | cons p t ih =>
    obtain ⟨k', v'⟩ := p
    by_cases hk : k' = k
    · simp [mapInsert, mapLookup, hk]
    · simp [mapInsert, mapLookup, hk, ih]

/-- Looking up another key after an insert. -/
theorem lookup_insert_ne {K V : Type} [DecidableEq K] (l : List (K × V)) (k : K) (v : V)
    (k2 : K) (h : k2 ≠ k) :
    mapLookup (mapInsert l k v) k2 = mapLookup l k2 := by
  induction l with
  | nil =>
    simp only [mapInsert, mapLookup]
    rw [if_neg (fun hh => h hh.symm)]
  | cons p t ih =>
    obtain ⟨k', v'⟩ := p
    simp only [mapInsert]
    by_cases hk : k' = k
    · rw [if_pos hk]
      subst hk
      simp only [mapLookup]
      rw [if_neg (fun hh => h hh.symm), if_neg (fun hh => h hh.symm)]
    · rw [if_neg hk]
      simp only [mapLookup]
      by_cases hk2 : k' = k2
      · rw [if_pos hk2, if_pos hk2]
      · rw [if_neg hk2, if_neg hk2]
        exact ih

/-- Inserting a key absent from the map appends the new entry. -/
theorem insert_fresh_append {K V : Type} [DecidableEq K] {l : List (K × V)} {k : K}
    (v : V) (hfresh : mapLookup l k = none) : mapInsert l k v = l ++ [(k, v)] := by
  induction l with
  | nil => rfl
  | cons p t ih =>
    obtain ⟨k', v'⟩ := p
    by_cases hk : k' = k
    · simp [mapLookup, hk] at hfresh
    · simp only [mapLookup, if_neg hk] at hfresh
      simp [mapInsert, hk, ih hfresh]

/-- Membership gives a successful lookup. -/
theorem lookup_isSome_of_mem {K V : Type} [DecidableEq K] {l : List (K × V)} {p : K × V}
    (h : p ∈ l) : ∃ v, mapLookup l p.1 = some v := by
  induction l with
  | nil => simp at h
  | cons q t ih =>
    obtain ⟨k', v'⟩ := q
    rcases List.mem_cons.mp h with rfl | hm
    · exact ⟨v', by simp [mapLookup]⟩
    · by_cases hk : k' = p.1
      · exact ⟨v', by simp [mapLookup, hk]⟩
      · obtain ⟨v, hv⟩ := ih hm
        exact ⟨v, by simp [mapLookup, hk, hv]⟩

/-- A key at least every stored id is absent from the by-ID index. -/
theorem lookup_none_of_ge {l : List (Nat × TypeRegistration)} {t : Nat}
    (h : ∀ p ∈ l, p.1 < t) : mapLookup l t = none := by
  cases hl : mapLookup l t with
  | none => rfl
  | some v =>
    have hm : (t, v) ∈ l := by
      clear h
      induction l with
      | nil => simp [mapLookup] at hl
      | cons q r ih =>
        obtain ⟨k', v'⟩ := q
        by_cases hk : k' = t
        · subst hk
          simp [mapLookup] at hl
          simp [hl]
        · simp only [mapLookup, if_neg hk] at hl
          exact List.mem_cons_of_mem _ (ih hl)
    have := h (t, v) hm
    omega

/-- Internal invariant: the bijection plus the counter dominating every id. -/
def RegInv (inner : RegistryInner) : Prop :=
  RegBijection inner ∧ ∀ p ∈ inner.by_id, p.1 < inner.next_type_id

/-- Freshness conditions under which a call keeps the bijection: `register` and
`register_with_id` need an unused name, `register_with_id` also an unused id;
`register_or_get` is always safe. -/
def callOk (inner : RegistryInner) : RegCall → Prop
  | .reg n => mapLookup inner.by_name n = none
  | .regWithId n t => mapLookup inner.by_name n = none ∧ mapLookup inner.by_id t = none
  | .regOrGet _ => True

/-- A call sequence each of whose calls is fresh for the state it runs in. -/
inductive SeqOk : RegistryInner → List RegCall → Prop
  | nil (inner : RegistryInner) : SeqOk inner []
  | cons {inner : RegistryInner} {c : RegCall} {cs : List RegCall} :
      callOk inner c → SeqOk (applyCall inner c) cs → SeqOk inner (c :: cs)

/-- Core preservation: a fresh registration keeps the invariant. -/
theorem register_inner_preserves (inner : RegistryInner) (n : String) (t : Nat)
    (hInv : RegInv inner) (hname : mapLookup inner.by_name n = none)
    (hid : mapLookup inner.by_id t = none) :
    RegInv (register_with_id_inner inner n t).1 := by
  obtain ⟨⟨hbij1, hbij2⟩, hctr⟩ := hInv
  have hid_app : mapInsert inner.by_id t ⟨t, n⟩ = inner.by_id ++ [(t, ⟨t, n⟩)] :=
    insert_fresh_append _ hid
  have hname_app : mapInsert inner.by_name n t = inner.by_name ++ [(n, t)] :=
    insert_fresh_append _ hname
  refine ⟨⟨?_, ?_⟩, ?_⟩
  · intro p hp
    simp only [register_with_id_inner] at hp ⊢
    rw [hid_app] at hp
    rcases List.mem_append.mp hp with hold | hnew
    · have hb := hbij1 p hold
      have hne : p.2.name ≠ n := by
        intro heq
        rw [heq] at hb
        rw [hname] at hb
        exact absurd hb (by simp)
      rw [lookup_insert_ne _ _ _ _ hne]
      exact hb
    · have hp' : p = (t, ⟨t, n⟩) := by simpa using hnew
      subst hp'
      exact lookup_insert_self _ _ _
  · intro q hq
    simp only [register_with_id_inner] at hq ⊢
    rw [hname_app] at hq
    rcases List.mem_append.mp hq with hold | hnew
    · have hb := hbij2 q hold
      have hne1 : q.1 ≠ n := by
        intro heq
        obtain ⟨v, hv⟩ := lookup_isSome_of_mem hold
        rw [heq] at hv
        rw [hname] at hv
        exact absurd hv (by simp)
      have hne2 : q.2 ≠ t := by
        intro heq
        rw [heq, hid] at hb
        exact absurd hb (by simp)
      rw [lookup_insert_ne _ _ _ _ hne2]
      exact hb
    · have hq' : q = (n, t) := by simpa using hnew
      subst hq'
      rw [lookup_insert_self]
      rfl
  · intro p hp
    simp only [register_with_id_inner] at hp ⊢
    rw [hid_app] at hp
    rcases List.mem_append.mp hp with hold | hnew
    · have := hctr p hold
      split <;> omega
    · have hp' : p = (t, ⟨t, n⟩) := by simpa using hnew
      subst hp'
      split <;> omega

/-- Every fresh call preserves the invariant. -/
theorem applyCall_preserves (inner : RegistryInner) (c : RegCall)
    (hInv : RegInv inner) (hok : callOk inner c) : RegInv (applyCall inner c) := by
  cases c with
  | reg n =>
    have hidfresh : mapLookup inner.by_id inner.next_type_id = none :=
      lookup_none_of_ge hInv.2
    exact register_inner_preserves inner n inner.next_type_id hInv hok hidfresh
  | regWithId n t =>
    exact register_inner_preserves inner n t hInv hok.1 hok.2
  | regOrGet n =>
    cases hl : mapLookup inner.by_name n with
    | some t =>
      simp only [applyCall, Registry.register_or_get, hl]
      exact hInv
    | none =>
      simp only [applyCall, Registry.register_or_get, hl]
      exact register_inner_preserves inner n inner.next_type_id hInv hl
        (lookup_none_of_ge hInv.2)

/-- Invariant preservation over a whole sequence. -/
theorem applyCalls_preserves :
    ∀ (cs : List RegCall) (inner : RegistryInner), RegInv inner → SeqOk inner cs →
      RegInv (applyCalls inner cs) := by
  intro cs
  induction cs with
  | nil =>
    intro inner hI _
    exact hI
  | cons c cs ih =>
    intro inner hI hS
    cases hS with
    | cons hok hS' =>
      exact ih (applyCall inner c) (applyCall_preserves inner c hI hok) hS'

/-- The fresh registry satisfies the invariant. -/
theorem regInv_new : RegInv Registry.new := by
  refine ⟨⟨?_, ?_⟩, ?_⟩ <;> intro p hp <;> simp [Registry.new] at hp

/-- Name for the counterexample registrations. -/
def nameA : String := "A"

/-- C1 (amended): after any sequence of `register`/`register_with_id`/
`register_or_get` calls in which every name passed to `register`/
`register_with_id` is not yet registered and every id passed to
`register_with_id` is not yet registered, the two indexes form a bijection;
and `register_or_get` called twice with the same name returns the same id both
times and leaves the state of the second call unchanged. -/
theorem claim1_registry_bijection :
    (∀ cs : List RegCall, SeqOk Registry.new cs →
      RegBijection (applyCalls Registry.new cs)) ∧
    (∀ inner : RegistryInner, ∀ n : String,
      (Registry.register_or_get (Registry.register_or_get inner n).1 n).2 =
        (Registry.register_or_get inner n).2 ∧
      (Registry.register_or_get (Registry.register_or_get inner n).1 n).1 =
        (Registry.register_or_get inner n).1) := by
  constructor
  · intro cs hS
    exact (applyCalls_preserves cs Registry.new regInv_new hS).1
  · intro inner n
    cases hl : mapLookup inner.by_name n with
    | some t =>
      simp only [Registry.register_or_get, hl]
      exact ⟨by trivial, by trivial⟩
    | none =>
      have hself : mapLookup
          (register_with_id_inner inner n inner.next_type_id).1.by_name n =
          some inner.next_type_id := by
        simp only [register_with_id_inner]
        exact lookup_insert_self _ _ _
      simp only [Registry.register_or_get, hl, hself]
      exact ⟨by trivial, by trivial⟩

/-- Witness for C1: registering a name then calling `register_or_get` on it. -/
theorem claim1_registry_bijection_witness :
    SeqOk Registry.new [RegCall.reg nameA, RegCall.regOrGet nameA] ∧
    RegBijection (applyCalls Registry.new [RegCall.reg nameA, RegCall.regOrGet nameA]) :=
  have hseq : SeqOk Registry.new [RegCall.reg nameA, RegCall.regOrGet nameA] :=
    SeqOk.cons rfl (SeqOk.cons trivial (SeqOk.nil _))
  ⟨hseq, claim1_registry_bijection.1 [RegCall.reg nameA, RegCall.regOrGet nameA] hseq⟩

/-- Counterexample to C1 as stated: registering the same name twice through
plain `register` leaves two ids that both carry the name while the by-name
index points only at the second, so the indexes are not a bijection. -/
theorem claim1_counterexample :
    ¬ RegBijection (applyCalls Registry.new [RegCall.reg nameA, RegCall.reg nameA]) := by
  unfold RegBijection
  decide

/-- C9: the two-byte sequence `[0x01, 0x00]` (extension bit set, varint field
number 0) is accepted by `decode_compact_tag` and `read_tag`, yields field
number 0 with wire type Varint, consumes 2 bytes, and is classified as an end
marker by `is_end_marker`, although it is not the single-byte end marker. -/
theorem claim9_end_marker_not_unique :
    decode_compact_tag [1, 0] = some ⟨0, .varint, 2⟩ ∧
    Reader.read_tag ⟨[1, 0], 0⟩ = (.ok ⟨0, .varint⟩, ⟨[1, 0], 2⟩) ∧
    Reader.is_end_marker ⟨0, .varint⟩ = true ∧
    ([1, 0] : List Nat) ≠ [END_MARKER] :=
  ⟨rfl, rfl, rfl, by decide⟩

end Cramberry
